import Mathlib

/-!
# Receipt processor: the scoring rules of `calculatePoints`, the store and the handlers

A shallow embedding of `src/receiptProcessor.go`, and of the scoring rules of the alternate
implementation `src/reciptChecker.go` (namespace `ReciptChecker`).

Modelling conventions.

* A Go `string` is a Lean `String`, read through its list of characters. Lean
  strings are exactly the valid UTF-8 strings, which is what `encoding/json`
  hands to `calculatePoints`. `len(s)` is the UTF-8 byte length.
* The platform is amd64: Go's `int` is the 64-bit two's-complement integer, every `+=` is
  followed by `wrap64`, and a float that does not fit converts to `-1<<63`.
* A `float64` is modelled exactly: a finite value is `(-1)^neg * m * 2^e`, and every
  operation that rounds does so explicitly (round to nearest, ties to even, 53 bits).
* A run-time panic is the result `none`.
* The standard library (`strconv`, `strings`, `time`, `math`, `regexp`) is modelled
  from its documented behaviour.
* A handler is a function of the store and of what it gets from outside: the outcome of the
  JSON decoder, the identifier `uuid.New()` returns, the path of the request. The map is
  modelled by its lookup function.
* For the mutex, each request is a goroutine that runs the statements of its handler which
  touch the mutex or the map, and a schedule interleaves the goroutines step by step.
-/

namespace ReceiptProcessor

/-! ## Data model -/

/-- The Go struct `Item`. -/
structure Item where
  Desc : String
  Price : String
deriving DecidableEq, Repr

/-- The Go struct `Receipt`. -/
structure Receipt where
  Store : String
  Date : String
  Time : String
  Total : String
  Items : List Item
deriving DecidableEq, Repr

/-! ## Characters and machine integers -/

/-- An ASCII decimal digit. -/
def isDigit (c : Char) : Bool := decide (48 ≤ c.toNat) && decide (c.toNat ≤ 57)

/-- The value of a decimal digit, `c - '0'`. -/
def digitVal (c : Char) : Nat := c.toNat - 48

/-- Membership in the regexp class `[a-zA-Z0-9]`. -/
def isAlnum (c : Char) : Bool :=
  (decide (97 ≤ c.toNat) && decide (c.toNat ≤ 122)) ||
  (decide (65 ≤ c.toNat) && decide (c.toNat ≤ 90)) || isDigit c

/-- Go's `lower(c) = c | ('x' ^ 'X')` restricted to what the parsers compare it with:
an upper-case ASCII letter is sent to its lower-case letter. -/
def lower (c : Char) : Char :=
  if 65 ≤ c.toNat ∧ c.toNat ≤ 90 then Char.ofNat (c.toNat + 32) else c

/-- Reduction of a mathematical integer to Go's 64-bit `int`. -/
def wrap64 (x : Int) : Int := (x + 2 ^ 63) % 2 ^ 64 - 2 ^ 63

/-- The Go builtin `len` on a string: the number of bytes of its UTF-8 encoding. -/
def len (s : List Char) : Nat := (s.map Char.utf8Size).sum

/-! ## `regexp` -/

/-- The matches `regexp.MustCompile("^[a-zA-Z0-9]*$").FindAllString(s, -1)` returns.
The pattern is anchored at both ends of the text, so the only possible match is the
whole text, and it matches exactly when every character is in the class (the empty
text included). -/
def FindAllString_anchored (s : List Char) : List (List Char) :=
  if s.all isAlnum then [s] else []

/-- The pieces the two patterns of this repository are made of: `^`, `$`, a character class
and a starred character class. -/
inductive Atom where
  | beginText
  | endText
  | cls (p : Char → Bool)
  | star (p : Char → Bool)

/-- The greedy loop of a starred class: take one more character of the class when the rest
of the pattern still matches after it, otherwise go on with the rest of the pattern here.
The result is the number of characters matched. -/
def greedy (p : Char → Bool) (cont : Bool → List Char → Option Nat) :
    Bool → List Char → Option Nat
  | atStart, [] => cont atStart []
  | atStart, c :: t =>
    if p c then
      match greedy p cont false t with
      | some k => some (k + 1)
      | none => cont atStart (c :: t)
    else cont atStart (c :: t)

/-- A match of the pattern that starts at the current position: the number of characters it
takes. `atStart` says whether the position is the beginning of the text (where `^` holds);
`$` holds at the end of the text. -/
def matchHere : List Atom → Bool → List Char → Option Nat
  | [], _, _ => some 0
  | Atom.beginText :: re, atStart, s => if atStart then matchHere re atStart s else none
  | Atom.endText :: re, atStart, s => if s.isEmpty then matchHere re atStart s else none
  | Atom.cls p :: re, _, s =>
    match s with
    | [] => none
    | c :: t => if p c then (matchHere re false t).map (· + 1) else none
  | Atom.star p :: re, atStart, s => greedy p (matchHere re) atStart s

/-- The leftmost match at or after the current position, as `doExecute` finds it: how many
characters are skipped before it, and how many it takes. -/
def doExecute (re : List Atom) : Bool → List Char → Option (Nat × Nat)
  | atStart, [] => (matchHere re atStart []).map (fun k => (0, k))
  | atStart, c :: t =>
    match matchHere re atStart (c :: t) with
    | some k => some (0, k)
    | none => (doExecute re false t).map (fun m => (m.1 + 1, m.2))

/-- The loop of `allMatches` in the package `regexp`, on the text that remains from `pos`
on: `prevHere` says that the previous match ended at `pos`. An empty match right after the
previous match is dropped, and after an empty match the search moves on by one character. -/
def allMatches (re : List Atom) : Nat → Bool → Bool → List Char → List (List Char)
  | 0, _, _, _ => []
  | fuel + 1, atStart, prevHere, s =>
    match doExecute re atStart s with
    | none => []
    | some (i, k) =>
      if i + k = 0 then
        match s with
        | [] => if prevHere then [] else [[]]
        | _ :: t => (if prevHere then [] else [[]]) ++ allMatches re fuel false false t
      else ((s.drop i).take k) :: allMatches re fuel false true (s.drop (i + k))

/-- The method `FindAllString(s, -1)` of a compiled pattern: all successive matches. Every
turn of the loop but the last moves on by a character at least, so the fuel is enough. -/
def FindAllString (re : List Atom) (s : List Char) : List (List Char) :=
  allMatches re (s.length + 1) true false s

/-- The pattern `^[a-zA-Z0-9]*$` of `src/receiptProcessor.go`. -/
def anchoredPattern : List Atom := [Atom.beginText, Atom.star isAlnum, Atom.endText]

/-- The pattern `[a-zA-Z0-9]` of `src/reciptChecker.go`. -/
def classPattern : List Atom := [Atom.cls isAlnum]

/-! ## `strings` -/

/-- The function `strings.Split(s, sep)` for a one-character separator. -/
def Split (sep : Char) : List Char → List (List Char)
  | [] => [[]]
  | c :: cs =>
    if c = sep then [] :: Split sep cs
    else match Split sep cs with
      | [] => [[c]]
      | p :: ps => (c :: p) :: ps

/-- The predicate `unicode.IsSpace`. -/
def isSpace (c : Char) : Bool :=
  let n := c.toNat
  decide (9 ≤ n ∧ n ≤ 13) || decide (n = 32) || decide (n = 0x85) || decide (n = 0xA0) ||
  decide (n = 0x1680) || decide (0x2000 ≤ n ∧ n ≤ 0x200a) || decide (n = 0x2028) ||
  decide (n = 0x2029) || decide (n = 0x202f) || decide (n = 0x205f) || decide (n = 0x3000)

/-- The function `strings.TrimSpace`. -/
def TrimSpace (s : List Char) : List Char :=
  ((s.dropWhile isSpace).reverse.dropWhile isSpace).reverse

/-! ## `strconv.Atoi` -/

/-- The base-10 loop of `strconv.ParseUint(s, 10, 64)`: `none` is a syntax error,
`some none` is a range error (the value is then `1<<64 - 1`), `some (some n)` is success. -/
def parseUintLoop : List Char → Nat → Option (Option Nat)
  | [], n => some (some n)
  | c :: cs, n =>
    if isDigit c then
      if n * 10 + digitVal c ≥ 2 ^ 64 then some none
      else parseUintLoop cs (n * 10 + digitVal c)
    else none

/-- The function `strconv.ParseUint(s, 10, 64)`; the error is dropped, as every caller here drops it. -/
def parseUint (s : List Char) : Option (Option Nat) :=
  if s = [] then none else parseUintLoop s 0

/-- The value `strconv.Atoi(s)` returns (64-bit `int`); the error is dropped, as the caller
drops it: `0` on a syntax error, the nearest bound on a range error. -/
def Atoi (s : List Char) : Int :=
  let neg := decide (s.head? = some '-')
  let body := if s.head? = some '-' ∨ s.head? = some '+' then s.tail else s
  match parseUint body with
  | none => 0
  | some none => if neg then -(2 ^ 63) else 2 ^ 63 - 1
  | some (some un) =>
    if neg then (if un > 2 ^ 63 then -(2 ^ 63) else -(un : Int))
    else (if un ≥ 2 ^ 63 then 2 ^ 63 - 1 else (un : Int))

/-! ## `time.Parse` with the layout `"15:04"` -/

/-- The helper `getnum` of package `time`: one or two leading digits, exactly two when `fixed`. -/
def getnum (s : List Char) (fixed : Bool) : Option (Nat × List Char) :=
  match s with
  | [] => none
  | [c0] => if isDigit c0 ∧ ¬ fixed then some (digitVal c0, []) else none
  | c0 :: c1 :: rest =>
    if isDigit c0 then
      if isDigit c1 then some (digitVal c0 * 10 + digitVal c1, rest)
      else if fixed then none else some (digitVal c0, c1 :: rest)
    else none

/-- A `time.Time` produced by the layout `"15:04"`: such a value lies on 1 January of year 0, UTC,
and is represented by its number of seconds since the start of that day. -/
structure GoTime where
  sec : Nat
deriving DecidableEq, Repr

/-- The method `Time.After`. -/
def GoTime.After (t u : GoTime) : Bool := decide (u.sec < t.sec)

/-- The method `Time.Before`. -/
def GoTime.Before (t u : GoTime) : Bool := decide (t.sec < u.sec)

/-- The call `time.Parse("15:04", value)`: an hour of one or two digits below 24, a colon, a
minute of exactly two digits below 60, and nothing after it; `none` is the error. -/
def timeParse (value : List Char) : Option GoTime :=
  match getnum value false with
  | none => none
  | some (hour, rest) =>
    if 24 ≤ hour then none
    else match rest with
      | [] => none
      | c :: rest1 =>
        if c = ':' then
          match getnum rest1 true with
          | none => none
          | some (min, rest2) =>
            if 60 ≤ min then none
            else if rest2 = [] then some ⟨hour * 3600 + min * 60⟩ else none
        else none

/-! ## `float64` -/

/-- A `float64` value: a finite `(-1)^neg * m * 2^e` (zero when `m = 0`), an infinity, or NaN.
Only representable values are ever built; a value may have several `(m, e)` spellings, so
floats are compared through the operations below, never by `=`. -/
inductive F64 where
  | fin (neg : Bool) (m : Nat) (e : Int)
  | inf (neg : Bool)
  | nan
deriving DecidableEq, Repr

/-- The loop behind `bitLen`: halve `n` until it is zero, at most `fuel` times. -/
def bitLenAux : Nat → Nat → Nat → Nat
  | 0, _, acc => acc
  | fuel + 1, n, acc => if n = 0 then acc else bitLenAux fuel (n / 2) (acc + 1)

/-- The number of binary digits of `n` (`bits.Len`): `2^(bitLen n - 1) ≤ n < 2^(bitLen n)` for
positive `n`. -/
def bitLen (n : Nat) : Nat := bitLenAux n n 0

/-- The binary exponent at which the positive rational `num / den` is rounded: the `e` with
`2^52 ≤ num / den / 2^e < 2^53`, but never below the subnormal exponent `-1074`. -/
def binExp (num den : Nat) : Int :=
  let e0 : Int := (bitLen num : Int) - (bitLen den : Int) - 52
  let e1 := if num * 2 ^ (-e0).toNat / (den * 2 ^ e0.toNat) < 2 ^ 52 then e0 - 1 else e0
  max e1 (-1074)

/-- The integer nearest to `N / D`, the even one when two are equally near. -/
def roundHalfEven (N D : Nat) : Nat :=
  if 2 * (N % D) < D then N / D
  else if D < 2 * (N % D) then N / D + 1
  else if N / D % 2 = 0 then N / D else N / D + 1

/-- IEEE 754 rounding of the non-negative rational `num / den` to binary64, to nearest with
ties to even: `some (m, e)` is the float `m * 2^e`, `none` is overflow. -/
def roundNearestEven (num den : Nat) : Option (Nat × Int) :=
  let e := binExp num den
  let m := roundHalfEven (num * 2 ^ (-e).toNat) (den * 2 ^ e.toNat)
  if 2 ^ 1024 ≤ m * 2 ^ e.toNat then none else some (m, e)

/-- The float with sign `neg` and the magnitude that `roundNearestEven` returned: an infinity
on overflow. -/
def F64.ofRounded (neg : Bool) : Option (Nat × Int) → F64
  | none => F64.inf neg
  | some (m, e) => F64.fin neg m e

/-- The float nearest to `(-1)^neg * m * 2^e`, an infinity on overflow. -/
def roundF64 (neg : Bool) (m : Nat) (e : Int) : F64 :=
  F64.ofRounded neg (roundNearestEven (m * 2 ^ e.toNat) (2 ^ (-e).toNat))

/-- The comparison `x == 0`. -/
def F64.isZero : F64 → Bool
  | fin _ m _ => decide (m = 0)
  | _ => false

/-- The function `math.Mod(x, y)`: the exact remainder of `x / y`, with the sign of `x`. -/
def F64.Mod (x y : F64) : F64 :=
  match x, y with
  | nan, _ => nan
  | _, nan => nan
  | inf _, _ => nan
  | fin n m e, inf _ => fin n m e
  | fin nx mx ex, fin _ my ey =>
    if my = 0 then nan
    else
      let e := min ex ey
      fin nx ((mx * 2 ^ (ex - e).toNat) % (my * 2 ^ (ey - e).toNat)) e

/-- The float64 product `x * y`: the exact product, rounded. -/
def F64.mul (x y : F64) : F64 :=
  match x, y with
  | nan, _ => nan
  | _, nan => nan
  | inf a, inf b => inf (xor a b)
  | inf a, fin b m _ => if m = 0 then nan else inf (xor a b)
  | fin a m _, inf b => if m = 0 then nan else inf (xor a b)
  | fin a m1 e1, fin b m2 e2 => roundF64 (xor a b) (m1 * m2) (e1 + e2)

/-- The function `math.Ceil`. -/
def F64.Ceil : F64 → F64
  | fin neg m e =>
    if 0 ≤ e then fin neg m e
    else if neg then fin true (m / 2 ^ (-e).toNat) 0
    else fin false ((m + 2 ^ (-e).toNat - 1) / 2 ^ (-e).toNat) 0
  | x => x

/-- The conversion `int(x)` on amd64: truncation toward zero; a value that does not fit the
64-bit `int` (NaN and the infinities included) gives `-1<<63`, the result of `CVTTSD2SQ`. -/
def F64.toInt : F64 → Int
  | fin neg m e =>
    let a : Nat := m * 2 ^ e.toNat / 2 ^ (-e).toNat
    let v : Int := if neg then -(a : Int) else (a : Int)
    if -(2 ^ 63) ≤ v ∧ v < 2 ^ 63 then v else -(2 ^ 63)
  | _ => -(2 ^ 63)

/-- The constant `1.0`. -/
def F64.one : F64 := F64.fin false 1 0

/-- The constant `0.25`. -/
def F64.quarter : F64 := F64.fin false 1 (-2)

/-- The constant `.2` as a float64: `0x3FC999999999999A`. -/
def F64.pointTwo : F64 := F64.fin false 7205759403792794 (-55)

/-! ## `strconv.ParseFloat` -/

/-- A hexadecimal letter digit, `'a' <= lower(c) && lower(c) <= 'f'`. -/
def isHexLetter (c : Char) : Bool :=
  decide (97 ≤ (lower c).toNat) && decide ((lower c).toNat ≤ 102)

/-- The helper `commonPrefixLenIgnoreCase`; `pre` is in lower case. -/
def commonPrefixLenIgnoreCase : List Char → List Char → Nat
  | c :: cs, p :: ps => if lower c = p then commonPrefixLenIgnoreCase cs ps + 1 else 0
  | _, _ => 0

/-- The `inf` / `infinity` case of `special`, on the text after the sign. -/
def specialInf (neg : Bool) (s : List Char) : Option (F64 × List Char) :=
  let n := commonPrefixLenIgnoreCase s "infinity".data
  let n := if 3 < n ∧ n < 8 then 3 else n
  if n = 3 ∨ n = 8 then some (F64.inf neg, s.drop n) else none

/-- The helper `special`: a possibly signed `inf`, `infinity`, or an unsigned `nan`, at the
start of the text; returns the value and the text left over. -/
def special (s : List Char) : Option (F64 × List Char) :=
  match s with
  | [] => none
  | c :: rest =>
    if c = '+' then specialInf false rest
    else if c = '-' then specialInf true rest
    else if c = 'i' ∨ c = 'I' then specialInf false s
    else if c = 'n' ∨ c = 'N' then
      if commonPrefixLenIgnoreCase s "nan".data = 3 then some (F64.nan, s.drop 3) else none
    else none

/-- The state of the mantissa loop of `readFloat`. The mantissa is kept in full: the 19-digit
truncation of the source only feeds fast paths whose result is the correctly rounded one. -/
structure ReadState where
  mant : Nat
  nd : Nat
  dp : Int
  sawdot : Bool
  sawdigits : Bool
  underscores : Bool
deriving DecidableEq, Repr

/-- The mantissa loop of `readFloat`, in base 10 or 16; returns the text left over. -/
def readMantissa (hex : Bool) : List Char → ReadState → ReadState × List Char
  | [], st => (st, [])
  | c :: cs, st =>
    if c = '_' then readMantissa hex cs { st with underscores := true }
    else if c = '.' then
      if st.sawdot then (st, c :: cs)
      else readMantissa hex cs { st with sawdot := true, dp := st.nd }
    else if isDigit c then
      if c = '0' ∧ st.nd = 0 then
        readMantissa hex cs { st with sawdigits := true, dp := st.dp - 1 }
      else
        readMantissa hex cs { st with sawdigits := true, nd := st.nd + 1,
                                      mant := st.mant * (if hex then 16 else 10) + digitVal c }
    else if hex ∧ isHexLetter c then
      readMantissa hex cs { st with sawdigits := true, nd := st.nd + 1,
                                    mant := st.mant * 16 + ((lower c).toNat - 97 + 10) }
    else (st, c :: cs)

/-- The exponent-digit loop of `readFloat`: digits and underscores, the value capped as in the
source (`if e < 10000`). Returns the exponent, whether an underscore was seen, and the rest. -/
def readExpDigits : List Char → Nat → Bool → Nat × Bool × List Char
  | [], e, u => (e, u, [])
  | c :: cs, e, u =>
    if c = '_' then readExpDigits cs e true
    else if isDigit c then readExpDigits cs (if e < 10000 then e * 10 + digitVal c else e) u
    else (e, u, c :: cs)

/-- The loop of `underscoreOK`; `saw` is the class of the last character seen. -/
def underscoreOKLoop (hex : Bool) : List Char → Char → Bool
  | [], saw => saw != '_'
  | c :: cs, saw =>
    if isDigit c || (hex && isHexLetter c) then underscoreOKLoop hex cs '0'
    else if c = '_' then (if saw != '0' then false else underscoreOKLoop hex cs '_')
    else if saw = '_' then false
    else underscoreOKLoop hex cs '!'

/-- The helper `underscoreOK`: underscores only between digits, or between a base prefix and
a digit. -/
def underscoreOK (s : List Char) : Bool :=
  let s := if s.head? = some '-' ∨ s.head? = some '+' then s.tail else s
  match s with
  | c0 :: c1 :: rest =>
    if c0 = '0' ∧ (lower c1 = 'b' ∨ lower c1 = 'o' ∨ lower c1 = 'x') then
      underscoreOKLoop (decide (lower c1 = 'x')) rest '0'
    else underscoreOKLoop false s '^'
  | _ => underscoreOKLoop false s '^'

/-- What `readFloat` extracts: the sign, the base, the mantissa and its exponent (a power of
ten, or of two for a hexadecimal float), and the text left over. -/
structure ReadFloat where
  neg : Bool
  hex : Bool
  mant : Nat
  exp : Int
  rest : List Char
deriving DecidableEq, Repr

/-- The test `i+2 < len(s) && s[i] == '0' && lower(s[i+1]) == 'x'` of `readFloat`. -/
def hasHexPrefix : List Char → Bool
  | c0 :: c1 :: _ :: _ => decide (c0 = '0') && decide (lower c1 = 'x')
  | _ => false

/-- The optional exponent of `readFloat`, read from the text after the mantissa: the amount
the decimal point moves by, whether an underscore has been seen so far, and the text left over.
`none` is `ok = false`: an exponent character without digits, or a hexadecimal mantissa
without exponent. -/
def readExponent (hex : Bool) (underscores : Bool) (s3 : List Char) :
    Option (Int × Bool × List Char) :=
  match s3 with
  | c :: s4 =>
    if lower c = (if hex then 'p' else 'e') then
      match s4 with
      | [] => none
      | c1 :: s5 =>
        let esign : Int := if c1 = '-' then -1 else 1
        let s6 := if c1 = '+' ∨ c1 = '-' then s5 else s4
        match s6 with
        | [] => none
        | c2 :: _ =>
          if isDigit c2 then
            some ((readExpDigits s6 0 underscores).1 * esign,
                  (readExpDigits s6 0 underscores).2.1, (readExpDigits s6 0 underscores).2.2)
          else none
    else if hex then none
    else some (0, underscores, s3)
  | [] => if hex then none else some (0, underscores, [])

/-- The helper `readFloat`; `none` is its `ok = false`. -/
def readFloat (s : List Char) : Option ReadFloat :=
  match s with
  | [] => none
  | c :: _ =>
    let neg := decide (c = '-')
    let s1 := if c = '+' ∨ c = '-' then s.tail else s
    let hex := hasHexPrefix s1
    let s2 := if hex then s1.drop 2 else s1
    let st := (readMantissa hex s2 ⟨0, 0, 0, false, false, false⟩).1
    let s3 := (readMantissa hex s2 ⟨0, 0, 0, false, false, false⟩).2
    if ¬ st.sawdigits then none
    else
      let dp0 : Int := if st.sawdot then st.dp else st.nd
      let dp1 : Int := if hex then dp0 * 4 else dp0
      let nd1 : Int := if hex then (st.nd : Int) * 4 else st.nd
      match readExponent hex st.underscores s3 with
      | none => none
      | some (de, underscores, rest) =>
        if underscores ∧ ¬ underscoreOK (s.take (s.length - rest.length)) then none
        else some ⟨neg, hex, st.mant, if st.mant = 0 then 0 else dp1 + de - nd1, rest⟩

/-- The two errors of package `strconv`. -/
inductive NumError where
  | ErrSyntax
  | ErrRange
deriving DecidableEq, Repr

/-- The function `strconv.ParseFloat(s, 64)`: the value and the error (`none` is `nil`). The
value is `0` on a syntax error and the correctly rounded value otherwise; an overflow gives an
infinity together with a range error. -/
def ParseFloat (s : List Char) : F64 × Option NumError :=
  match special s with
  | some (v, rest) =>
    if rest = [] then (v, none) else (F64.fin false 0 0, some NumError.ErrSyntax)
  | none =>
    match readFloat s with
    | none => (F64.fin false 0 0, some NumError.ErrSyntax)
    | some rf =>
      if rf.rest ≠ [] then (F64.fin false 0 0, some NumError.ErrSyntax)
      else
        let b : Nat := if rf.hex then 2 else 10
        let r := roundNearestEven (rf.mant * b ^ rf.exp.toNat) (b ^ (-rf.exp).toNat)
        (F64.ofRounded rf.neg r, if r.isNone then some NumError.ErrRange else none)

/-! ## `calculatePoints`

The function is cut at the end of each rule; `afterRuleN` is the value of the variable
`points` once rule `N` has run. -/

/-- Rule 1: `points += len(regexp.MustCompile("^[a-zA-Z0-9]*$").FindAllString(receipt.Store, -1))`. -/
def afterRule1 (receipt : Receipt) : Int :=
  wrap64 (0 + ((FindAllString_anchored receipt.Store.data).length : Int))

/-- The variable `tot`: `tot, _ := strconv.ParseFloat(receipt.Total, 64)`. -/
def tot (receipt : Receipt) : F64 := (ParseFloat receipt.Total.data).1

/-- Rule 2: `if math.Mod(tot, 1.0) == 0 { points += 50 }`. -/
def afterRule2 (receipt : Receipt) : Int :=
  if ((tot receipt).Mod F64.one).isZero then wrap64 (afterRule1 receipt + 50)
  else afterRule1 receipt

/-- Rule 3: `if math.Mod(tot, 0.25) == 0 { points += 25 }`. -/
def afterRule3 (receipt : Receipt) : Int :=
  if ((tot receipt).Mod F64.quarter).isZero then wrap64 (afterRule2 receipt + 25)
  else afterRule2 receipt

/-- Rule 4: `points += (len(receipt.Items) / 2) * 5`. -/
def afterRule4 (receipt : Receipt) : Int :=
  wrap64 (afterRule3 receipt + wrap64 (((receipt.Items.length / 2 : Nat) : Int) * 5))

/-- What one item adds under rule 5 when its description qualifies:
`int(math.Ceil(price * .2))` with `price, _ := strconv.ParseFloat(item.Price, 64)`. -/
def itemPoints (item : Item) : Int :=
  (((ParseFloat item.Price.data).1.mul F64.pointTwo).Ceil).toInt

/-- Rule 5, the loop `for _, item := range receipt.Items`, started with `points`. -/
def rule5Loop : List Item → Int → Int
  | [], points => points
  | item :: items, points =>
    if len (TrimSpace item.Desc.data) % 3 = 0 then
      rule5Loop items (wrap64 (points + itemPoints item))
    else rule5Loop items points

/-- Rule 5. -/
def afterRule5 (receipt : Receipt) : Int := rule5Loop receipt.Items (afterRule4 receipt)

/-- Rule 6: `if IsLLM { points += 5 }`; `IsLLM` is the package-level flag. -/
def afterRule6 (IsLLM : Bool) (receipt : Receipt) : Int :=
  if IsLLM then wrap64 (afterRule5 receipt + 5) else afterRule5 receipt

/-- Rule 7: `day, _ := strconv.Atoi(strings.Split(receipt.Date, "-")[2])` and
`if day%2 != 0 { points += 6 }`. The index expression panics (`none`) when the date has fewer
than three dash-separated parts. -/
def afterRule7 (IsLLM : Bool) (receipt : Receipt) : Option Int :=
  match (Split '-' receipt.Date.data).get? 2 with
  | none => none
  | some part =>
    if Int.tmod (Atoi part) 2 ≠ 0 then some (wrap64 (afterRule6 IsLLM receipt + 6))
    else some (afterRule6 IsLLM receipt)

/-- The constant `start`: `time.Parse("15:04", "14:00")`. -/
def start : GoTime := ⟨14 * 3600⟩

/-- The constant `end`: `time.Parse("15:04", "16:00")`. -/
def «end» : GoTime := ⟨16 * 3600⟩

/-- Rule 8, on the value of `points` that rule 7 left: a purchase time that does not parse
returns 0, otherwise `if inpTime.After(start) && inpTime.Before(end) { points += 10 }`. The
variable `hour`, computed just before from `strings.Split(receipt.Time, ":")[0]`, is never read
and its computation cannot panic, so it is left out. -/
def rule8 (time : String) (points : Int) : Int :=
  match timeParse time.data with
  | none => 0
  | some inpTime =>
    if inpTime.After start && inpTime.Before «end» then wrap64 (points + 10) else points

/-- The method `calculatePoints`, given the value of the package-level flag `IsLLM`; `none` is
a run-time panic. -/
def calculatePoints (IsLLM : Bool) (receipt : Receipt) : Option Int :=
  match afterRule7 IsLLM receipt with
  | none => none
  | some points => some (rule8 receipt.Time points)

/-! ## The generation flag and `main` -/

/-- The function `strconv.ParseBool`; `none` is the error. -/
def ParseBool (s : String) : Option Bool :=
  if s = "1" ∨ s = "t" ∨ s = "T" ∨ s = "TRUE" ∨ s = "true" ∨ s = "True" then some true
  else if s = "0" ∨ s = "f" ∨ s = "F" ∨ s = "FALSE" ∨ s = "false" ∨ s = "False" then some false
  else none

/-- The process environment, as `os.LookupEnv` sees it. -/
abbrev Env := String → Option String

/-- The function `LLM`: it returns the value the package-level variable `IsLLM` has after the
call, given the value it had before. -/
def LLM (env : Env) (IsLLM : Bool) : Bool :=
  match env "GENERATED_BY_LLM" with
  | none => IsLLM
  | some val =>
    match ParseBool val with
    | none => IsLLM
    | some boolVal => boolVal

/-- The statements of the function `main`, as far as the flag is concerned, and the call
`LLM()` that `main` does not contain. -/
inductive MainStmt where
  | NewReceiptProcessor
  | HandleFunc (pattern : String)
  | Println
  | ListenAndServe
  | callLLM
deriving DecidableEq, Repr

/-- The body of `main`: `newR := NewReceiptProcessor()`, the two `http.HandleFunc`, the
`log.Println` and `http.ListenAndServe`. -/
def mainBody : List MainStmt :=
  [MainStmt.NewReceiptProcessor, MainStmt.HandleFunc "/receipts/process",
   MainStmt.HandleFunc "/receipts/", MainStmt.Println, MainStmt.ListenAndServe]

/-- The effect of one statement on the package-level variable `IsLLM`: only a call of `LLM`
assigns it (the handlers that `ListenAndServe` runs only read it, in `calculatePoints`). -/
def execStmt (env : Env) (IsLLM : Bool) : MainStmt → Bool
  | MainStmt.callLLM => LLM env IsLLM
  | _ => IsLLM

/-- The value of `IsLLM` while `main` serves requests: the variable is initialised by
`var IsLLM = false`, then the body of `main` runs. -/
def mainIsLLM (env : Env) : Bool := mainBody.foldl (execStmt env) false

/-- The points `ProcessReceipt` computes for a decoded receipt in a process started with
environment `env`: `newR.calculatePoints(rec)`. -/
def servedPoints (env : Env) (receipt : Receipt) : Option Int :=
  calculatePoints (mainIsLLM env) receipt

/-! ## Input classes named by the specification -/

/-- A non-empty string of decimal digits. -/
def isNumeral (s : List Char) : Bool := !s.isEmpty && s.all isDigit

/-- The number a string of decimal digits denotes. -/
def digitsVal (s : List Char) : Nat := s.foldl (fun n c => n * 10 + digitVal c) 0

/-- The text of the sign of a decimal numeral. -/
def signText (neg : Bool) : List Char := if neg then ['-'] else []

/-- A decimal numeral: a minus sign when `neg`, the digits `ip` of the integer part (at least
one), then either nothing, or a point and the fraction digits `fp`. -/
def isDecimal (s : String) (neg : Bool) (ip fp : List Char) : Prop :=
  isNumeral ip = true ∧ fp.all isDigit = true ∧
    (s.data = signText neg ++ (ip ++ '.' :: fp) ∨ (fp = [] ∧ s.data = signText neg ++ ip))

/-- The amount, in cents, that a decimal with at most two fraction digits denotes. -/
def cents (ip fp : List Char) : Nat := digitsVal (ip ++ fp) * 10 ^ (2 - fp.length)

/-- The exact value of the price that a decimal with at most two fraction digits denotes. -/
def priceValue (neg : Bool) (ip fp : List Char) : ℚ :=
  (if neg then -1 else 1) * ((cents ip fp : ℚ) / 100)

/-- A purchase date of the form year-month-day: the three numerals `y`, `m`, `d` joined by
dashes, the month and the day of one or two digits. -/
def isYearMonthDay (date : String) (y m d : List Char) : Prop :=
  isNumeral y = true ∧ isNumeral m = true ∧ isNumeral d = true ∧ m.length ≤ 2 ∧ d.length ≤ 2 ∧
    date.data = y ++ '-' :: (m ++ '-' :: d)

/-- A purchase time of the form hour:minute: the numerals `hour` and `min`, of one or two
digits each, joined by a colon. -/
def isHourMinute (time : String) (hour min : List Char) : Prop :=
  isNumeral hour = true ∧ isNumeral min = true ∧ hour.length ≤ 2 ∧ min.length ≤ 2 ∧
    time.data = hour ++ ':' :: min

/-! ## The alternate implementation `src/reciptChecker.go`

Its `calculatePoints` is cut at the end of each rule, like the one above. It has no rule on
the generation flag, and its rule on the purchase time does not call `time.Parse`. -/

namespace ReciptChecker

/-- The Go struct `Item` of `reciptChecker.go`. -/
structure Item where
  ShortDescription : String
  Price : String
deriving DecidableEq, Repr

/-- The Go struct `Receipt` of `reciptChecker.go`. -/
structure Receipt where
  Retailer : String
  PurchaseDate : String
  PurchaseTime : String
  Items : List Item
  Total : String
deriving DecidableEq, Repr

/-- The retailer rule:
`points += len(regexp.MustCompile("[a-zA-Z0-9]").FindAllString(receipt.Retailer, -1))`. -/
def afterRetailer (receipt : Receipt) : Int :=
  wrap64 (0 + ((FindAllString classPattern receipt.Retailer.data).length : Int))

/-- The variable `total`: `total, _ := strconv.ParseFloat(receipt.Total, 64)`. -/
def total (receipt : Receipt) : F64 := (ParseFloat receipt.Total.data).1

/-- The round-dollar rule: `if math.Mod(total, 1.0) == 0 { points += 50 }`. -/
def afterRoundDollar (receipt : Receipt) : Int :=
  if ((total receipt).Mod F64.one).isZero then wrap64 (afterRetailer receipt + 50)
  else afterRetailer receipt

/-- The quarter rule: `if math.Mod(total, 0.25) == 0 { points += 25 }`. -/
def afterQuarter (receipt : Receipt) : Int :=
  if ((total receipt).Mod F64.quarter).isZero then wrap64 (afterRoundDollar receipt + 25)
  else afterRoundDollar receipt

/-- The pair rule: `points += (len(receipt.Items) / 2) * 5`. -/
def afterPairs (receipt : Receipt) : Int :=
  wrap64 (afterQuarter receipt + wrap64 (((receipt.Items.length / 2 : Nat) : Int) * 5))

/-- What one item adds when its description qualifies: `int(math.Ceil(price * 0.2))` with
`price, _ := strconv.ParseFloat(item.Price, 64)`. -/
def itemPoints (item : Item) : Int :=
  (((ParseFloat item.Price.data).1.mul F64.pointTwo).Ceil).toInt

/-- The loop `for _, item := range receipt.Items`, started with `points`. -/
def itemLoop : List Item → Int → Int
  | [], points => points
  | item :: items, points =>
    if len (TrimSpace item.ShortDescription.data) % 3 = 0 then
      itemLoop items (wrap64 (points + itemPoints item))
    else itemLoop items points

/-- The item rule. -/
def afterItems (receipt : Receipt) : Int := itemLoop receipt.Items (afterPairs receipt)

/-- The day rule: `day, _ := strconv.Atoi(strings.Split(receipt.PurchaseDate, "-")[2])` and
`if day%2 != 0 { points += 6 }`; the index expression panics on a short date. -/
def afterDay (receipt : Receipt) : Option Int :=
  match (Split '-' receipt.PurchaseDate.data).get? 2 with
  | none => none
  | some part =>
    if Int.tmod (Atoi part) 2 ≠ 0 then some (wrap64 (afterItems receipt + 6))
    else some (afterItems receipt)

/-- The time rule, on the value of `points` the day rule left:
`parts := strings.Split(receipt.PurchaseTime, ":")`, `hour, _ := strconv.Atoi(parts[0])` and
`if hour == 14 { points += 10 }`. -/
def timeRule (PurchaseTime : String) (points : Int) : Option Int :=
  match (Split ':' PurchaseTime.data).get? 0 with
  | none => none
  | some part => if Atoi part = 14 then some (wrap64 (points + 10)) else some points

/-- The method `calculatePoints` of `reciptChecker.go`; `none` is a run-time panic. -/
def calculatePoints (receipt : Receipt) : Option Int :=
  match afterDay receipt with
  | none => none
  | some points => timeRule receipt.PurchaseTime points

end ReciptChecker

/-! ## The score store and the two handlers

What a handler gets from outside is an argument of its model: the outcome of the JSON
decoder (the value it left in `rec` and whether it returned an error), the identifier that
`uuid.New().String()` returns, and the path of the request. -/

set_option linter.dupNamespace false in
/-- The Go struct `ReceiptProcessor`. The field `data map[string]int` is modelled by its
lookup function, `none` for a key that is absent; the field `mutex` holds no data, and what
the handlers do with it is modelled by `Instr` below. -/
structure ReceiptProcessor where
  data : String → Option Int

/-- The function `NewReceiptProcessor`: `data: make(map[string]int)`. -/
def NewReceiptProcessor : ReceiptProcessor := ⟨fun _ => none⟩

/-- The constant `http.StatusBadRequest`. -/
def StatusBadRequest : Nat := 400

/-- The constant `http.StatusNotFound`. -/
def StatusNotFound : Nat := 404

/-- What a handler writes to its `http.ResponseWriter`: `http.Error(w, error, code)`, or the
JSON encoding of `map[string]string{"id": id}` or of `map[string]int{"points": points}`. -/
inductive Response where
  | Error (error : String) (code : Nat)
  | id (id : String)
  | points (points : Int)
deriving DecidableEq, Repr

/-- The function `strings.TrimPrefix`; `p` is its second argument. -/
def TrimPrefix (s p : List Char) : List Char :=
  if p.isPrefixOf s then s.drop p.length else s

/-- The function `strings.TrimSuffix`; `p` is its second argument. -/
def TrimSuffix (s p : List Char) : List Char :=
  if p.isSuffixOf s then s.take (s.length - p.length) else s

/-- The handler `ProcessReceipt`: the store it leaves and the response it writes; the
response `none` is a panic of `calculatePoints`, which ends the handler before it reaches the
store. `rec` and `err` are what `json.NewDecoder(r.Body).Decode(&rec)` gave, `id` is what
`uuid.New().String()` returns. -/
def ProcessReceipt (IsLLM : Bool) (newR : ReceiptProcessor) (rec : Receipt) (err : Bool)
    (id : String) : ReceiptProcessor × Option Response :=
  if err then (newR, some (Response.Error "Invalid JSON string" StatusBadRequest))
  else
    match calculatePoints IsLLM rec with
    | none => (newR, none)
    | some points =>
      (⟨fun key => if key = id then some points else newR.data key⟩, some (Response.id id))

/-- The variable `id` of `GetPoints`: `strings.TrimPrefix(r.URL.Path, "/receipts/")`, then
`strings.TrimSuffix(id, "/points")`. -/
def requestId (path : String) : String :=
  ⟨TrimSuffix (TrimPrefix path.data "/receipts/".data) "/points".data⟩

/-- The handler `GetPoints`, on the path of the request: the store it leaves and the
response it writes. -/
def GetPoints (newR : ReceiptProcessor) (path : String) : ReceiptProcessor × Response :=
  match newR.data (requestId path) with
  | none => (newR, Response.Error "No reciept found for that ID value" StatusNotFound)
  | some points => (newR, Response.points points)

/-- A request to one of the two handlers that `main` registers, with what the handler gets
from outside. -/
inductive Request where
  | process (rec : Receipt) (err : Bool) (id : String)
  | get (path : String)

/-- The identifier that is ready for a call of `ProcessReceipt`. -/
def Request.issued : Request → Option String
  | Request.process _ _ id => some id
  | Request.get _ => none

/-- The store after one request. -/
def serve (IsLLM : Bool) (newR : ReceiptProcessor) : Request → ReceiptProcessor
  | Request.process rec err id => (ProcessReceipt IsLLM newR rec err id).1
  | Request.get path => (GetPoints newR path).1

/-- The store after a sequence of requests, served one after the other. -/
def serveAll (IsLLM : Bool) (newR : ReceiptProcessor) (reqs : List Request) : ReceiptProcessor :=
  reqs.foldl (serve IsLLM) newR

/-! ## The mutex

Each request is served by a goroutine of its own. What a goroutine does to the mutex and to
the map is the list of the statements of its handler that touch them; a scheduler picks the
goroutine that takes the next step. -/

/-- The statements of the handlers that touch the mutex or the map: `newR.mutex.Lock()`,
`newR.mutex.Unlock()`, `newR.data[id] = points` and `points, exists := newR.data[id]`. -/
inductive Instr where
  | Lock
  | Unlock
  | Write (id : String) (points : Int)
  | Read (id : String)
deriving DecidableEq, Repr

/-- An access of the map. -/
def Instr.isAccess : Instr → Bool
  | Instr.Write _ _ => true
  | Instr.Read _ => true
  | _ => false

/-- The statements of `ProcessReceipt` that touch the mutex or the map, in the order of the
source; none is reached after a decoding error or a panic of `calculatePoints`. -/
def ProcessReceiptBody (IsLLM : Bool) (rec : Receipt) (err : Bool) (id : String) : List Instr :=
  if err then []
  else
    match calculatePoints IsLLM rec with
    | none => []
    | some points => [Instr.Lock, Instr.Write id points, Instr.Unlock]

/-- The statements of `GetPoints` that touch the mutex or the map, in the order of the
source. -/
def GetPointsBody (path : String) : List Instr :=
  [Instr.Lock, Instr.Read (requestId path), Instr.Unlock]

/-- The statements the goroutine of a request runs. -/
def Request.body (IsLLM : Bool) : Request → List Instr
  | Request.process rec err id => ProcessReceiptBody IsLLM rec err id
  | Request.get path => GetPointsBody path

/-- The state of the server: the map, the goroutine that holds the mutex, if any, and for
each goroutine the statements it has still to run. -/
structure Machine where
  data : String → Option Int
  holder : Option Nat
  threads : List (List Instr)

/-- One step of goroutine `g`; `none` when it cannot take one. `Lock` waits while the mutex
is held; `Unlock` of a mutex that is not locked is a fatal error; a write of the map sets the
key, a read leaves the map as it is. -/
def step (m : Machine) (g : Nat) : Option Machine :=
  match m.threads.get? g with
  | none => none
  | some [] => none
  | some (Instr.Lock :: rest) =>
    if m.holder = none then some ⟨m.data, some g, m.threads.set g rest⟩ else none
  | some (Instr.Unlock :: rest) =>
    if m.holder = none then none else some ⟨m.data, none, m.threads.set g rest⟩
  | some (Instr.Write id points :: rest) =>
    some ⟨fun key => if key = id then some points else m.data key, m.holder,
      m.threads.set g rest⟩
  | some (Instr.Read _ :: rest) => some ⟨m.data, m.holder, m.threads.set g rest⟩

/-- The state after the steps of a schedule; `none` when the schedule picks a goroutine that
cannot take a step. -/
def run (m : Machine) : List Nat → Option Machine
  | [] => some m
  | g :: schedule =>
    match step m g with
    | none => none
    | some next => run next schedule

/-- The server when the goroutines of the requests `reqs` start with the store `newR`. -/
def serving (IsLLM : Bool) (newR : ReceiptProcessor) (reqs : List Request) : Machine :=
  ⟨newR.data, none, reqs.map (Request.body IsLLM)⟩

/-- Goroutine `g` is at an access of the map: it is the statement `g` runs next. -/
def accessing (m : Machine) (g : Nat) : Bool :=
  match m.threads.get? g with
  | some (instr :: _) => instr.isAccess
  | _ => false

/-- What a goroutine that holds the mutex has still to run: its access of the map and the
`Unlock`, or the `Unlock` alone. -/
def inside : List Instr → Bool
  | [instr] => decide (instr = Instr.Unlock)
  | [instr, last] => instr.isAccess && decide (last = Instr.Unlock)
  | _ => false

/-- What a goroutine that does not hold the mutex has still to run: nothing, or a `Lock`
followed by what a holder runs. -/
def outside : List Instr → Bool
  | [] => true
  | instr :: rest => decide (instr = Instr.Lock) && inside rest

/-- The invariant of the server: the goroutine that holds the mutex is inside its critical
section, every other goroutine is outside. -/
def lockInvariant (m : Machine) : Prop :=
  ∀ g t, m.threads.get? g = some t →
    (m.holder = some g → inside t = true) ∧ (m.holder ≠ some g → outside t = true)

/-! ## Lemmas on `strings.Split` and `strconv.Atoi` -/

theorem Split_ne_nil (sep : Char) (s : List Char) : Split sep s ≠ [] := by
  induction s with
  | nil => simp [Split]
  | cons c cs ih =>
    unfold Split
    split
    · simp
    · split <;> simp

theorem Split_of_not_mem (sep : Char) (a : List Char) (h : sep ∉ a) : Split sep a = [a] := by
  induction a with
  | nil => simp [Split]
  | cons c cs ih =>
    have hc : c ≠ sep := fun e => h (by simp [e])
    have hcs : sep ∉ cs := fun e => h (by simp [e])
    simp [Split, hc, ih hcs]

theorem Split_append_sep (sep : Char) (a b : List Char) (h : sep ∉ a) :
    Split sep (a ++ sep :: b) = a :: Split sep b := by
  induction a with
  | nil => simp [Split]
  | cons c cs ih =>
    have hc : c ≠ sep := fun e => h (by simp [e])
    have hcs : sep ∉ cs := fun e => h (by simp [e])
    simp [Split, hc, ih hcs]

theorem dash_not_mem_of_isNumeral (s : List Char) (h : isNumeral s = true) : '-' ∉ s := by
  intro hm
  simp only [isNumeral, Bool.and_eq_true, List.all_eq_true] at h
  have := h.2 _ hm
  revert this
  decide

theorem Split_yearMonthDay (date : String) (y m d : List Char) (h : isYearMonthDay date y m d) :
    Split '-' date.data = [y, m, d] := by
  obtain ⟨hy, hm, hd, _, _, he⟩ := h
  rw [he, Split_append_sep _ _ _ (dash_not_mem_of_isNumeral y hy),
    Split_append_sep _ _ _ (dash_not_mem_of_isNumeral m hm),
    Split_of_not_mem _ _ (dash_not_mem_of_isNumeral d hd)]

theorem digitVal_le_nine (c : Char) (h : isDigit c = true) : digitVal c ≤ 9 := by
  simp only [isDigit, Bool.and_eq_true, decide_eq_true_eq] at h
  unfold digitVal
  omega

theorem isDigit_ne_sign (c : Char) (h : isDigit c = true) : c ≠ '-' ∧ c ≠ '+' := by
  constructor <;> (intro e; subst e; revert h; decide)

/-- On a numeral of one or two digits `Atoi` returns the number it denotes. -/
theorem Atoi_short_numeral (d : List Char) (hd : isNumeral d = true) (hl : d.length ≤ 2) :
    Atoi d = (digitsVal d : Int) := by
  simp only [isNumeral, Bool.and_eq_true, List.all_eq_true] at hd
  match d, hd, hl with
  | [a], hd, _ =>
    have ha : isDigit a = true := hd.2 a (by simp)
    have h9 := digitVal_le_nine a ha
    obtain ⟨h1, h2⟩ := isDigit_ne_sign a ha
    have hge : ¬ (18446744073709551616 ≤ digitVal a) := by omega
    have hge2 : ¬ (9223372036854775808 ≤ digitVal a) := by omega
    simp [Atoi, parseUint, parseUintLoop, digitsVal, ha, h1, h2, hge, hge2]
  | [a, b], hd, _ =>
    have ha : isDigit a = true := hd.2 a (by simp)
    have hb : isDigit b = true := hd.2 b (by simp)
    have h9 := digitVal_le_nine a ha
    have h9b := digitVal_le_nine b hb
    obtain ⟨h1, h2⟩ := isDigit_ne_sign a ha
    have hge : ¬ (18446744073709551616 ≤ digitVal a) := by omega
    have hge1 : ¬ (18446744073709551616 ≤ digitVal a * 10 + digitVal b) := by omega
    have hge2 : ¬ (9223372036854775808 ≤ digitVal a * 10 + digitVal b) := by omega
    simp [Atoi, parseUint, parseUintLoop, digitsVal, ha, hb, h1, h2, hge, hge1, hge2]
  | [], hd, _ => simp at hd
  | _ :: _ :: _ :: _, _, hl => simp at hl

/-! ## Lemmas on `time.Parse` -/

/-- A purchase time that parses denotes an hour below 24 and a minute below 60. -/
theorem timeParse_some (value : List Char) (t : GoTime) (h : timeParse value = some t) :
    ∃ hour min, hour < 24 ∧ min < 60 ∧ t = ⟨hour * 3600 + min * 60⟩ := by
  unfold timeParse at h
  split at h
  · simp at h
  · rename_i hour rest _
    split at h
    · simp at h
    · split at h
      · simp at h
      · split at h
        · split at h
          · simp at h
          · rename_i min rest2 _
            split at h
            · simp at h
            · split at h
              · refine ⟨hour, min, by omega, by omega, ?_⟩
                simpa using h.symm
              · simp at h
        · simp at h

/-! ## Lemmas on rounding to `float64` -/

theorem bitLenAux_spec : ∀ (fuel n acc : Nat), n ≤ fuel → 0 < n →
    ∃ b, bitLenAux fuel n acc = acc + b ∧ 0 < b ∧ 2 ^ (b - 1) ≤ n ∧ n < 2 ^ b := by
  intro fuel
  induction fuel with
  | zero => intro n acc h1 h2; omega
  | succ fuel ih =>
    intro n acc h1 h2
    have hn : n ≠ 0 := by omega
    simp only [bitLenAux, hn, if_false]
    by_cases h : n / 2 = 0
    · refine ⟨1, ?_, by omega, ?_, ?_⟩
      · cases fuel with
        | zero => simp [bitLenAux]
        | succ f => simp [bitLenAux, h]
      · simpa using h2
      · simp; omega
    · obtain ⟨b, hb, hb0, hlo, hhi⟩ := ih (n / 2) (acc + 1) (by omega) (by omega)
      refine ⟨b + 1, by rw [hb]; omega, by omega, ?_, ?_⟩
      · have : 2 ^ (b + 1 - 1) = 2 * 2 ^ (b - 1) := by
          rw [show b + 1 - 1 = (b - 1) + 1 by omega, pow_succ]; ring
        rw [this]; omega
      · rw [pow_succ]; omega

theorem bitLen_spec (n : Nat) (h : 0 < n) :
    0 < bitLen n ∧ 2 ^ (bitLen n - 1) ≤ n ∧ n < 2 ^ bitLen n := by
  obtain ⟨b, hb, hb0, hlo, hhi⟩ := bitLenAux_spec n n 0 le_rfl h
  have : bitLen n = b := by simp [bitLen, hb]
  rw [this]; exact ⟨hb0, hlo, hhi⟩

theorem two_pow_toNat (e : ℤ) (h : 0 ≤ e) : ((2:ℚ) ^ e.toNat) = (2:ℚ) ^ e := by
  rw [← zpow_natCast, Int.toNat_of_nonneg h]

theorem two_pow_toNat_neg (e : ℤ) :
    ((2:ℚ) ^ (-e).toNat) = (2:ℚ) ^ e.toNat * (2:ℚ) ^ (-e) := by
  rcases le_total 0 e with h | h
  · have h1 : (-e).toNat = 0 := by omega
    rw [h1, pow_zero, two_pow_toNat e h, ← zpow_add₀ (by norm_num)]
    simp
  · have h1 : e.toNat = 0 := by omega
    rw [h1, pow_zero, one_mul, two_pow_toNat (-e) (by omega)]

theorem scaled_lt (num den K : ℕ) (e : ℤ) :
    num * 2 ^ (-e).toNat < K * (den * 2 ^ e.toNat) ↔ (num:ℚ) < K * den * (2:ℚ) ^ e := by
  have hp : (0:ℚ) < (2:ℚ) ^ e.toNat := by positivity
  have hz : (0:ℚ) < (2:ℚ) ^ e := by positivity
  have hzz : (2:ℚ) ^ (-e) * (2:ℚ) ^ e = 1 := by
    rw [← zpow_add₀ (by norm_num)]; simp
  rw [← Nat.cast_lt (α := ℚ)]
  push_cast
  rw [two_pow_toNat_neg]
  constructor
  · intro h
    have h2 : (num:ℚ) * (2:ℚ) ^ (-e) < K * den := by
      by_contra hc
      push_neg at hc
      have := mul_le_mul_of_nonneg_right hc hp.le
      nlinarith
    have := mul_lt_mul_of_pos_right h2 hz
    rw [mul_assoc, hzz, mul_one] at this
    exact this
  · intro h
    have h2 : (num:ℚ) * (2:ℚ) ^ (-e) < K * den := by
      have hz' : (0:ℚ) < (2:ℚ) ^ (-e) := by positivity
      have := mul_lt_mul_of_pos_right h hz'
      rw [mul_assoc, mul_comm ((2:ℚ)^e), hzz, mul_one] at this
      exact this
    have := mul_lt_mul_of_pos_right h2 hp
    nlinarith

theorem scaled_le (num den K : ℕ) (e : ℤ) :
    K * (den * 2 ^ e.toNat) ≤ num * 2 ^ (-e).toNat ↔ (K:ℚ) * den * (2:ℚ) ^ e ≤ num := by
  rw [← not_lt, ← not_lt, scaled_lt]

theorem binExp_spec (num den : ℕ) (hn : 0 < num) (hd : 0 < den) :
    (num:ℚ) < 2 ^ 53 * den * (2:ℚ) ^ (binExp num den) ∧
    (-1074 < binExp num den → (2:ℚ) ^ 52 * den * (2:ℚ) ^ (binExp num den) ≤ num) ∧
    -1074 ≤ binExp num den := by
  obtain ⟨hbn0, hnlo, hnhi⟩ := bitLen_spec num hn
  obtain ⟨hbd0, hdlo, hdhi⟩ := bitLen_spec den hd
  have hnlo' : (2:ℚ) ^ (bitLen num - 1) ≤ num := by exact_mod_cast hnlo
  have hnhi' : (num:ℚ) < 2 ^ bitLen num := by exact_mod_cast hnhi
  have hdlo' : (2:ℚ) ^ (bitLen den - 1) ≤ den := by exact_mod_cast hdlo
  have hdhi' : (den:ℚ) < 2 ^ bitLen den := by exact_mod_cast hdhi
  have hn2 : (2:ℚ) ^ bitLen num = 2 * 2 ^ (bitLen num - 1) := by
    rw [← pow_succ']; congr 1; omega
  have hd2 : (2:ℚ) ^ bitLen den = 2 * 2 ^ (bitLen den - 1) := by
    rw [← pow_succ']; congr 1; omega
  have hE : (2:ℚ) ^ ((bitLen num : ℤ) - (bitLen den : ℤ) - 52) * ((2:ℚ) ^ bitLen den * 2 ^ 52)
      = (2:ℚ) ^ bitLen num := by
    rw [zpow_sub₀ (by norm_num), zpow_sub₀ (by norm_num), zpow_natCast, zpow_natCast]
    have h1 : ((2:ℚ) ^ bitLen den) ≠ 0 := by positivity
    have h2 : ((2:ℚ) ^ (52:ℤ)) ≠ 0 := by positivity
    field_simp
    norm_num
  have hden : (0:ℚ) < den := by exact_mod_cast hd
  set e0 : ℤ := (bitLen num : ℤ) - (bitLen den : ℤ) - 52 with he0
  have hz0 : (0:ℚ) < (2:ℚ) ^ e0 := by positivity
  have hx : (0:ℚ) < (den:ℚ) * (2:ℚ) ^ e0 := by positivity
  -- the two bounds at the first guess
  have F1 : (num:ℚ) < 2 ^ 53 * ((den:ℚ) * (2:ℚ) ^ e0) := by
    have h1 : (2:ℚ) ^ bitLen den * (2:ℚ) ^ e0 ≤ 2 * den * (2:ℚ) ^ e0 := by
      apply mul_le_mul_of_nonneg_right _ hz0.le
      linarith
    nlinarith
  have F2 : (2:ℚ) ^ 51 * ((den:ℚ) * (2:ℚ) ^ e0) < num := by
    have h1 : (den:ℚ) * (2:ℚ) ^ e0 < (2:ℚ) ^ bitLen den * (2:ℚ) ^ e0 :=
      mul_lt_mul_of_pos_right hdhi' hz0
    nlinarith
  have hhalf : (2:ℚ) ^ (e0 - 1) = (2:ℚ) ^ e0 / 2 := by
    rw [zpow_sub₀ (by norm_num)]; simp
  -- the corrected exponent
  have hb1 : ∀ e1 : ℤ,
      e1 = (if num * 2 ^ (-e0).toNat / (den * 2 ^ e0.toNat) < 2 ^ 52 then e0 - 1 else e0) →
      (num:ℚ) < 2 ^ 53 * den * (2:ℚ) ^ e1 ∧ (2:ℚ) ^ 52 * den * (2:ℚ) ^ e1 ≤ num := by
    intro e1 he1
    have hB : 0 < den * 2 ^ e0.toNat := by positivity
    have ht := scaled_lt num den (2 ^ 52) e0
    push_cast at ht
    by_cases htest : num * 2 ^ (-e0).toNat / (den * 2 ^ e0.toNat) < 2 ^ 52
    · rw [if_pos htest] at he1
      have := ht.1 ((Nat.div_lt_iff_lt_mul hB).1 htest)
      rw [he1, hhalf]
      constructor <;> nlinarith
    · rw [if_neg htest] at he1
      have : ¬ ((num:ℚ) < 2 ^ 52 * den * (2:ℚ) ^ e0) :=
        fun h => htest ((Nat.div_lt_iff_lt_mul hB).2 (ht.2 h))
      push_neg at this
      rw [he1]
      constructor <;> nlinarith
  obtain ⟨hu, hl⟩ := hb1 _ rfl
  show (num:ℚ) < 2 ^ 53 * den * (2:ℚ) ^ (max _ (-1074)) ∧
    (-1074 < max _ (-1074) → (2:ℚ) ^ 52 * den * (2:ℚ) ^ (max _ (-1074)) ≤ num) ∧
    -1074 ≤ max _ (-1074)
  refine ⟨?_, ?_, le_max_right _ _⟩
  · have hmono : (2:ℚ) ^ (if num * 2 ^ (-e0).toNat / (den * 2 ^ e0.toNat) < 2 ^ 52 then e0 - 1 else e0)
        ≤ (2:ℚ) ^ (max (if num * 2 ^ (-e0).toNat / (den * 2 ^ e0.toNat) < 2 ^ 52 then e0 - 1 else e0) (-1074)) :=
      zpow_le_zpow_right₀ (by norm_num) (le_max_left _ _)
    have h53 : (0:ℚ) < 2 ^ 53 * den := by positivity
    calc (num:ℚ) < 2 ^ 53 * den * _ := hu
      _ ≤ _ := mul_le_mul_of_nonneg_left hmono h53.le
  · intro hgt
    have : max (if num * 2 ^ (-e0).toNat / (den * 2 ^ e0.toNat) < 2 ^ 52 then e0 - 1 else e0) (-1074)
        = (if num * 2 ^ (-e0).toNat / (den * 2 ^ e0.toNat) < 2 ^ 52 then e0 - 1 else e0) := by
      rcases max_choice (if num * 2 ^ (-e0).toNat / (den * 2 ^ e0.toNat) < 2 ^ 52 then e0 - 1 else e0) (-1074) with h | h
      · exact h
      · rw [h] at hgt; omega
    rw [this]; exact hl

theorem binExp_le (num den : ℕ) (K : ℤ) (hn : 0 < num) (hd : 0 < den) (hK : -1021 ≤ K)
    (h : (num:ℚ) < den * (2:ℚ) ^ K) : binExp num den ≤ K - 53 := by
  obtain ⟨_, hlo, _⟩ := binExp_spec num den hn hd
  by_contra hc
  push_neg at hc
  have h1 := hlo (by omega)
  have hden : (0:ℚ) < den := by exact_mod_cast hd
  have hmono : (2:ℚ) ^ (K - 52) ≤ (2:ℚ) ^ (binExp num den) :=
    zpow_le_zpow_right₀ (by norm_num) (by omega)
  have hK2 : (2:ℚ) ^ K = 2 ^ 52 * (2:ℚ) ^ (K - 52) := by
    rw [zpow_sub₀ (by norm_num)]
    have : ((2:ℚ) ^ (52:ℤ)) = 2 ^ 52 := by norm_cast
    rw [this]; field_simp
  have : (den:ℚ) * (2:ℚ) ^ (K - 52) ≤ den * (2:ℚ) ^ (binExp num den) :=
    mul_le_mul_of_nonneg_left hmono hden.le
  rw [hK2] at h
  nlinarith

theorem roundHalfEven_spec (N D : ℕ) (hD : 0 < D) :
    2 * N ≤ 2 * (roundHalfEven N D * D) + D ∧ 2 * (roundHalfEven N D * D) ≤ 2 * N + D := by
  have h1 := Nat.div_add_mod N D
  have h2 := Nat.mod_lt N hD
  have h3 : (N / D + 1) * D = D * (N / D) + D := by ring
  have h4 : N / D * D = D * (N / D) := by ring
  unfold roundHalfEven
  split
  · rw [h4]; omega
  · split
    · rw [h3]; omega
    · split
      · rw [h4]; omega
      · rw [h3]; omega

theorem roundHalfEven_unique (N D V : ℕ) (hD : 0 < D)
    (h1 : 2 * N < 2 * (V * D) + D) (h2 : 2 * (V * D) < 2 * N + D) : roundHalfEven N D = V := by
  obtain ⟨s1, s2⟩ := roundHalfEven_spec N D hD
  rcases Nat.lt_trichotomy (roundHalfEven N D) V with h | h | h
  · have : (roundHalfEven N D + 1) * D ≤ V * D := Nat.mul_le_mul_right D h
    rw [Nat.add_mul] at this
    omega
  · exact h
  · have : (V + 1) * D ≤ roundHalfEven N D * D := Nat.mul_le_mul_right D h
    rw [Nat.add_mul] at this
    omega

theorem roundHalfEven_exact (V D : ℕ) (hD : 0 < D) : roundHalfEven (V * D) D = V :=
  roundHalfEven_unique _ _ _ hD (by omega) (by omega)

theorem roundHalfEven_le (N D : ℕ) : roundHalfEven N D ≤ N / D + 1 := by
  unfold roundHalfEven
  split
  · omega
  · split
    · omega
    · split <;> omega

/-- Rounding does not overflow when the exponent is not positive. -/
theorem roundNearestEven_of_nonpos (num den : ℕ) (hn : 0 < num) (hd : 0 < den)
    (he : binExp num den ≤ 0) :
    roundNearestEven num den =
      some (roundHalfEven (num * 2 ^ (-(binExp num den)).toNat) den, binExp num den) := by
  obtain ⟨hu, _, _⟩ := binExp_spec num den hn hd
  have ht : (binExp num den).toNat = 0 := by omega
  have hlt := (scaled_lt num den (2 ^ 53) (binExp num den)).2 (by push_cast; exact hu)
  rw [ht, pow_zero, mul_one] at hlt
  have hq : num * 2 ^ (-(binExp num den)).toNat / den < 2 ^ 53 :=
    (Nat.div_lt_iff_lt_mul hd).2 hlt
  have hm := roundHalfEven_le (num * 2 ^ (-(binExp num den)).toNat) den
  have hov : ¬ (2 ^ 1024 ≤ roundHalfEven (num * 2 ^ (-(binExp num den)).toNat) den) := by
    have : (2:ℕ) ^ 53 < 2 ^ 1024 := by norm_num
    omega
  simp only [roundNearestEven, ht, pow_zero, mul_one, hov, if_false]

theorem roundHalfEven_ge (N D : ℕ) : N / D ≤ roundHalfEven N D := by
  unfold roundHalfEven
  split
  · omega
  · split
    · omega
    · split <;> omega

/-- The rounded quotient is within one half of the exact quotient. -/
theorem roundHalfEven_err (N D : ℕ) (hD : 0 < D) :
    (roundHalfEven N D : ℚ) ≤ (N:ℚ) / D + 1 / 2 ∧ (N:ℚ) / D - 1 / 2 ≤ (roundHalfEven N D : ℚ) := by
  obtain ⟨s1, s2⟩ := roundHalfEven_spec N D hD
  have hDq : (0:ℚ) < D := by exact_mod_cast hD
  have s1' : (2:ℚ) * N ≤ 2 * (roundHalfEven N D * D) + D := by exact_mod_cast s1
  have s2' : (2:ℚ) * (roundHalfEven N D * D) ≤ 2 * N + D := by exact_mod_cast s2
  constructor
  · rw [← sub_le_iff_le_add, le_div_iff₀ hDq]
    nlinarith
  · rw [sub_le_iff_le_add, div_le_iff₀ hDq]
    nlinarith

theorem binExp_gt (num den : ℕ) (K : ℤ) (hn : 0 < num) (hd : 0 < den)
    (h : (2:ℚ) ^ 53 * den * (2:ℚ) ^ K ≤ num) : K < binExp num den := by
  obtain ⟨hu, _, _⟩ := binExp_spec num den hn hd
  by_contra hc
  push_neg at hc
  have hmono : (2:ℚ) ^ (binExp num den) ≤ (2:ℚ) ^ K := zpow_le_zpow_right₀ (by norm_num) hc
  have hden : (0:ℚ) < 2 ^ 53 * den := by
    have : (0:ℚ) < den := by exact_mod_cast hd
    positivity
  have := mul_le_mul_of_nonneg_left hmono hden.le
  linarith

/-! ## Lemmas on `strconv.ParseFloat` -/

theorem digitVal_zero : digitVal '0' = 0 := by decide

theorem isDigit_ne_underscore_dot (c : Char) (h : isDigit c = true) : c ≠ '_' ∧ c ≠ '.' := by
  constructor <;> (intro e; subst e; revert h; decide)

theorem readMantissa_digits (ds : List Char) (hds : ∀ c ∈ ds, isDigit c = true) :
    ∀ (st : ReadState) (rest : List Char), (st.nd = 0 → st.mant = 0) →
    ∃ st' : ReadState, readMantissa false (ds ++ rest) st = readMantissa false rest st' ∧
      (st'.nd = 0 → st'.mant = 0) ∧
      st'.mant = ds.foldl (fun n c => n * 10 + digitVal c) st.mant ∧
      st'.dp - st'.nd = st.dp - st.nd - ds.length ∧
      st'.sawdot = st.sawdot ∧ st'.underscores = st.underscores ∧
      st'.sawdigits = (st.sawdigits || !ds.isEmpty) := by
  induction ds with
  | nil =>
    intro st rest hI
    exact ⟨st, by simp, hI, by simp, by simp, rfl, rfl, by simp⟩
  | cons c cs ih =>
    intro st rest hI
    have hc : isDigit c = true := hds c (by simp)
    obtain ⟨h1, h2⟩ := isDigit_ne_underscore_dot c hc
    have hcs : ∀ c ∈ cs, isDigit c = true := fun x hx => hds x (by simp [hx])
    by_cases hz : c = '0' ∧ st.nd = 0
    · obtain ⟨st', e1, e2, e3, e4, e5, e6, e7⟩ :=
        ih hcs { st with sawdigits := true, dp := st.dp - 1 } rest (by simpa using hI)
      refine ⟨st', ?_, e2, ?_, ?_, e5, e6, ?_⟩
      · rw [← e1]
        simp only [List.cons_append]
        rw [readMantissa]
        simp [h1, h2, hc, hz, show isDigit '0' = true by decide]
      · rw [e3]
        simp [List.foldl_cons, hz.1, digitVal_zero, hI hz.2]
      · rw [e4]; simp; omega
      · rw [e7]; simp
    · obtain ⟨st', e1, e2, e3, e4, e5, e6, e7⟩ :=
        ih hcs { st with sawdigits := true, nd := st.nd + 1, mant := st.mant * 10 + digitVal c }
          rest (by simp)
      refine ⟨st', ?_, e2, ?_, ?_, e5, e6, ?_⟩
      · rw [← e1]
        simp only [List.cons_append]
        rw [readMantissa]
        simp [h1, h2, hc, hz, show isDigit '0' = true by decide]
      · rw [e3]
        simp [List.foldl_cons]
      · rw [e4]; simp; omega
      · rw [e7]; simp

theorem isDigit_not_special (c : Char) (h : isDigit c = true) :
    c ≠ '+' ∧ c ≠ '-' ∧ c ≠ 'i' ∧ c ≠ 'I' ∧ c ≠ 'n' ∧ c ≠ 'N' ∧ c ≠ 'x' ∧ c ≠ 'X' := by
  refine ⟨?_, ?_, ?_, ?_, ?_, ?_, ?_, ?_⟩ <;> (intro e; subst e; revert h; decide)

theorem lower_of_isDigit (c : Char) (h : isDigit c = true) : lower c = c := by
  simp only [isDigit, Bool.and_eq_true, decide_eq_true_eq] at h
  unfold lower
  rw [if_neg (by omega)]

theorem hasHexPrefix_eq_false (s : List Char) (h : ∀ c ∈ s, isDigit c = true ∨ c = '.') :
    hasHexPrefix s = false := by
  match s, h with
  | [], _ => rfl
  | [_], _ => rfl
  | [_, _], _ => rfl
  | c0 :: c1 :: c2 :: r, h =>
    have h1 : lower c1 ≠ 'x' := by
      rcases h c1 (by simp) with hd | hd
      · rw [lower_of_isDigit c1 hd]; exact (isDigit_not_special c1 hd).2.2.2.2.2.2.1
      · subst hd; decide
    simp [hasHexPrefix, h1]

theorem special_of_digit (c : Char) (t : List Char) (h : isDigit c = true) :
    special (c :: t) = none := by
  obtain ⟨h1, h2, h3, h4, h5, h6, _, _⟩ := isDigit_not_special c h
  simp [special, h1, h2, h3, h4, h5, h6]

theorem readMantissa_decimal (ip fp : List Char) (hip : ∀ c ∈ ip, isDigit c = true)
    (hne : ip ≠ []) (hfp : ∀ c ∈ fp, isDigit c = true) (s : List Char)
    (hs : s = ip ++ '.' :: fp ∨ (fp = [] ∧ s = ip)) :
    ∃ st : ReadState, readMantissa false s ⟨0, 0, 0, false, false, false⟩ = (st, []) ∧
      st.mant = digitsVal (ip ++ fp) ∧ st.sawdigits = true ∧ st.underscores = false ∧
      (if st.sawdot then st.dp else (st.nd : ℤ)) - st.nd = -(fp.length : ℤ) := by
  have hne' : ip.isEmpty = false := by cases ip <;> simp_all
  rcases hs with hs | ⟨hf, hs⟩
  · obtain ⟨st1, a1, a2, a3, a4, a5, a6, a7⟩ :=
      readMantissa_digits ip hip ⟨0, 0, 0, false, false, false⟩ ('.' :: fp) (by simp)
    obtain ⟨st3, b1, b2, b3, b4, b5, b6, b7⟩ :=
      readMantissa_digits fp hfp { st1 with sawdot := true, dp := st1.nd } [] (by simpa using a2)
    rw [List.append_nil] at b1
    have hdot : readMantissa false ('.' :: fp) st1 =
        readMantissa false fp { st1 with sawdot := true, dp := st1.nd } := by
      rw [readMantissa]
      simp [a5]
    have hnil : readMantissa false [] st3 = (st3, []) := by rw [readMantissa]
    refine ⟨st3, ?_, ?_, ?_, ?_, ?_⟩
    · rw [hs, a1, hdot, b1, hnil]
    · rw [b3]; simp only [a3, digitsVal, List.foldl_append]
    · rw [b7]; simp [a7, hne']
    · rw [b6]; simp [a6]
    · have : st3.sawdot = true := by rw [b5]
      rw [this]; simp only [if_true]; rw [b4]; simp
  · subst hf
    obtain ⟨st1, a1, a2, a3, a4, a5, a6, a7⟩ :=
      readMantissa_digits ip hip ⟨0, 0, 0, false, false, false⟩ [] (by simp)
    rw [List.append_nil] at a1
    have hnil : readMantissa false [] st1 = (st1, []) := by rw [readMantissa]
    refine ⟨st1, ?_, ?_, ?_, ?_, ?_⟩
    · rw [hs, a1, hnil]
    · rw [a3]; simp [digitsVal]
    · rw [a7]; simp [hne']
    · rw [a6]
    · have : st1.sawdot = false := by rw [a5]
      rw [this]; simp

/-- What the parser sees in the unsigned part of a decimal numeral. -/
theorem readFloat_body (ip fp body : List Char) (hip : isNumeral ip = true)
    (hfp : fp.all isDigit = true) (hs : body = ip ++ '.' :: fp ∨ (fp = [] ∧ body = ip)) :
    (∃ st : ReadState, readMantissa false body ⟨0, 0, 0, false, false, false⟩ = (st, []) ∧
      st.mant = digitsVal (ip ++ fp) ∧ st.sawdigits = true ∧ st.underscores = false ∧
      (if st.sawdot then st.dp else (st.nd : ℤ)) - st.nd = -(fp.length : ℤ)) ∧
    hasHexPrefix body = false ∧ ∃ c0 t, body = c0 :: t ∧ isDigit c0 = true := by
  simp only [isNumeral, Bool.and_eq_true, List.all_eq_true, Bool.not_eq_true',
    List.isEmpty_eq_false] at hip
  rw [List.all_eq_true] at hfp
  have hne : ip ≠ [] := by
    intro e; rw [e] at hip; simp at hip
  have hall : ∀ c ∈ body, isDigit c = true ∨ c = '.' := by
    intro c hc
    rcases hs with hs | ⟨_, hs⟩
    · rw [hs] at hc
      simp only [List.mem_append, List.mem_cons] at hc
      rcases hc with hc | hc | hc
      · exact Or.inl (hip.2 c hc)
      · exact Or.inr hc
      · exact Or.inl (hfp c hc)
    · rw [hs] at hc; exact Or.inl (hip.2 c hc)
  obtain ⟨c0, t, hct⟩ : ∃ c0 t, ip = c0 :: t := by
    cases ip with
    | nil => exact absurd rfl hne
    | cons c t => exact ⟨c, t, rfl⟩
  have hc0 : isDigit c0 = true := hip.2 c0 (by simp [hct])
  refine ⟨readMantissa_decimal ip fp hip.2 hne hfp body hs, hasHexPrefix_eq_false body hall, ?_⟩
  rcases hs with hs | ⟨_, hs⟩
  · exact ⟨c0, t ++ '.' :: fp, by rw [hs, hct]; rfl, hc0⟩
  · exact ⟨c0, t, by rw [hs, hct], hc0⟩

theorem isDecimal_data (s : String) (neg : Bool) (ip fp : List Char)
    (h : isDecimal s neg ip fp) :
    ∃ body, s.data = signText neg ++ body ∧
      (body = ip ++ '.' :: fp ∨ (fp = [] ∧ body = ip)) := by
  obtain ⟨_, _, hs⟩ := h
  rcases hs with hs | ⟨hf, hs⟩
  · exact ⟨_, hs, Or.inl rfl⟩
  · exact ⟨_, hs, Or.inr ⟨hf, rfl⟩⟩

theorem readFloat_decimal (s : String) (neg : Bool) (ip fp : List Char)
    (h : isDecimal s neg ip fp) :
    readFloat s.data = some ⟨neg, false, digitsVal (ip ++ fp),
      if digitsVal (ip ++ fp) = 0 then 0 else -(fp.length : ℤ), []⟩ := by
  obtain ⟨body, hdata, hbody⟩ := isDecimal_data s neg ip fp h
  obtain ⟨⟨st, hrm, hm, hsd, hu, hexp⟩, hhex, c0, t, hct, hc0⟩ :=
    readFloat_body ip fp body h.1 h.2.1 hbody
  have hexp' : (if st.sawdot = true then st.dp else (st.nd : ℤ)) + 0 - (st.nd : ℤ)
      = -(fp.length : ℤ) := by rw [add_zero]; exact hexp
  obtain ⟨h1, h2, _⟩ := isDigit_not_special c0 hc0
  cases neg with
  | false =>
    have hd : s.data = c0 :: t := by rw [hdata, hct]; rfl
    rw [hct] at hrm hhex
    rw [hd]
    simp only [readFloat, h1, h2, or_self, if_false, hhex, hrm, hsd, hu, readExponent,
      Bool.false_eq_true, not_true_eq_false, not_false_eq_true, false_and, decide_False, hexp',
      hm]
  | true =>
    have hd : s.data = '-' :: body := by rw [hdata]; rfl
    rw [hd]
    simp only [readFloat, List.tail_cons, or_true, if_true, hhex, hrm, hsd, hu, readExponent,
      Bool.false_eq_true, not_true_eq_false, not_false_eq_true, false_and, decide_True,
      if_false, hexp', hm]

theorem foldl_digits (b : List Char) : ∀ n : ℕ,
    b.foldl (fun n c => n * 10 + digitVal c) n = n * 10 ^ b.length + digitsVal b := by
  induction b with
  | nil => intro n; simp [digitsVal]
  | cons c cs ih =>
    intro n
    simp only [List.foldl_cons, digitsVal, List.length_cons]
    rw [ih, ih (0 * 10 + digitVal c)]
    simp only [digitsVal]
    ring

theorem digitsVal_append (a b : List Char) :
    digitsVal (a ++ b) = digitsVal a * 10 ^ b.length + digitsVal b := by
  simp only [digitsVal, List.foldl_append]
  exact foldl_digits b _

theorem digitsVal_lt (b : List Char) (h : ∀ c ∈ b, isDigit c = true) :
    digitsVal b < 10 ^ b.length := by
  induction b using List.reverseRecOn with
  | nil => simp [digitsVal]
  | append_singleton cs c ih =>
    have hc := digitVal_le_nine c (h c (by simp))
    have := ih (fun x hx => h x (by simp [hx]))
    rw [digitsVal_append]
    simp only [List.length_append, List.length_singleton, pow_succ]
    have h1 : digitsVal [c] = digitVal c := by simp [digitsVal]
    rw [h1]
    simp only [pow_zero, one_mul]
    omega

theorem specialInf_of_digit (neg : Bool) (c : Char) (t : List Char) (h : isDigit c = true) :
    specialInf neg (c :: t) = none := by
  have hl : lower c = c := lower_of_isDigit c h
  have hi : c ≠ 'i' := (isDigit_not_special c h).2.2.1
  have hd : "infinity".data = ['i', 'n', 'f', 'i', 'n', 'i', 't', 'y'] := by decide
  simp [specialInf, hd, commonPrefixLenIgnoreCase, hl, hi]

theorem special_decimal (s : String) (neg : Bool) (ip fp : List Char)
    (h : isDecimal s neg ip fp) : special s.data = none := by
  obtain ⟨body, hdata, hbody⟩ := isDecimal_data s neg ip fp h
  obtain ⟨_, _, c0, t, hct, hc0⟩ := readFloat_body ip fp body h.1 h.2.1 hbody
  cases neg with
  | false =>
    have hd : s.data = c0 :: t := by rw [hdata, hct]; rfl
    rw [hd]; exact special_of_digit c0 t hc0
  | true =>
    have hd : s.data = '-' :: c0 :: t := by rw [hdata, hct]; rfl
    rw [hd]
    simp [special, specialInf_of_digit true c0 t hc0]

theorem ParseFloat_decimal (s : String) (neg : Bool) (ip fp : List Char)
    (h : isDecimal s neg ip fp) (hpos : 0 < digitsVal (ip ++ fp)) :
    ParseFloat s.data =
      (F64.ofRounded neg (roundNearestEven (digitsVal (ip ++ fp)) (10 ^ fp.length)),
        if (roundNearestEven (digitsVal (ip ++ fp)) (10 ^ fp.length)).isNone
        then some NumError.ErrRange else none) := by
  have hrf := readFloat_decimal s neg ip fp h
  have hsp := special_decimal s neg ip fp h
  have hne : digitsVal (ip ++ fp) ≠ 0 := by omega
  have h1 : (-(fp.length : ℤ)).toNat = 0 := by omega
  have h2 : (- -(fp.length : ℤ)).toNat = fp.length := by omega
  simp only [ParseFloat, hsp, hrf, hne, if_false, ne_eq, not_true_eq_false, h1, h2, pow_zero,
    mul_one, Bool.false_eq_true]

theorem ParseFloat_decimal_zero (s : String) (neg : Bool) (ip fp : List Char)
    (h : isDecimal s neg ip fp) (hz : digitsVal (ip ++ fp) = 0) :
    ParseFloat s.data = (F64.fin neg 0 (-54), none) := by
  have hrf := readFloat_decimal s neg ip fp h
  have hsp := special_decimal s neg ip fp h
  have hr : roundNearestEven 0 1 = some (0, -54) := by decide!
  simp only [ParseFloat, hsp, hrf, hz, if_true, ne_eq, not_true_eq_false, if_false,
    Int.toNat_zero, pow_zero, mul_one, neg_zero, Bool.false_eq_true, hr]
  rfl

/-- A non-zero decimal of integer part below `10^13` is rounded at an exponent of at most `-9`,
without overflow. -/
theorem ParseFloat_amount (s : String) (neg : Bool) (ip fp : List Char)
    (h : isDecimal s neg ip fp) (hb : digitsVal ip < 10 ^ 13) (hpos : 0 < digitsVal (ip ++ fp)) :
    binExp (digitsVal (ip ++ fp)) (10 ^ fp.length) ≤ -9 ∧
    ParseFloat s.data =
      (F64.fin neg
        (roundHalfEven
          (digitsVal (ip ++ fp) * 2 ^ (-(binExp (digitsVal (ip ++ fp)) (10 ^ fp.length))).toNat)
          (10 ^ fp.length))
        (binExp (digitsVal (ip ++ fp)) (10 ^ fp.length)), none) := by
  have hfp : ∀ c ∈ fp, isDigit c = true := by
    have := h.2.1; rwa [List.all_eq_true] at this
  have hd : 0 < 10 ^ fp.length := by positivity
  have hlt : digitsVal (ip ++ fp) < 10 ^ 13 * 10 ^ fp.length := by
    rw [digitsVal_append]
    have := digitsVal_lt fp hfp
    have h3 : (digitsVal ip + 1) * 10 ^ fp.length ≤ 10 ^ 13 * 10 ^ fp.length :=
      Nat.mul_le_mul_right _ hb
    rw [Nat.add_mul, one_mul] at h3
    omega
  have hq : ((digitsVal (ip ++ fp) : ℕ) : ℚ) < ((10 ^ fp.length : ℕ) : ℚ) * (2:ℚ) ^ (44:ℤ) := by
    have h44 : (2:ℚ) ^ (44:ℤ) = ((2 ^ 44 : ℕ) : ℚ) := by norm_cast
    rw [h44, ← Nat.cast_mul, Nat.cast_lt]
    have : 10 ^ 13 * 10 ^ fp.length ≤ 10 ^ fp.length * 2 ^ 44 := by
      rw [mul_comm]; exact Nat.mul_le_mul_left _ (by norm_num)
    omega
  have he := binExp_le _ _ 44 hpos hd (by norm_num) hq
  have he' : binExp (digitsVal (ip ++ fp)) (10 ^ fp.length) ≤ -9 := by omega
  refine ⟨he', ?_⟩
  rw [ParseFloat_decimal s neg ip fp h hpos,
    roundNearestEven_of_nonpos _ _ hpos hd (by omega)]
  simp only [F64.ofRounded, Option.isNone_some, Bool.false_eq_true, if_false]

theorem Mod_one_isZero (m : ℕ) (e : ℤ) (he : e ≤ 0) :
    ((F64.fin false m e).Mod F64.one).isZero = decide (m % 2 ^ (-e).toNat = 0) := by
  simp [F64.Mod, F64.one, F64.isZero, min_eq_left he]

theorem Mod_quarter_isZero (m : ℕ) (e : ℤ) (he : e ≤ -2) :
    ((F64.fin false m e).Mod F64.quarter).isZero = decide (m % 2 ^ (-2 - e).toNat = 0) := by
  simp [F64.Mod, F64.quarter, F64.isZero, min_eq_left he]

/-- Rounding `u * P / D` gives a multiple of `P` exactly when `u / D` is an integer, as soon as
`P` is large against `D`. -/
theorem roundHalfEven_mod (u P D : ℕ) (hD : 0 < D) (hDP : D < 2 * P) :
    roundHalfEven (u * P) D % P = 0 ↔ D ∣ u := by
  obtain ⟨s1, s2⟩ := roundHalfEven_spec (u * P) D hD
  constructor
  · intro hm
    obtain ⟨j, hj⟩ := Nat.dvd_of_mod_eq_zero hm
    have hmD : roundHalfEven (u * P) D * D = j * D * P := by rw [hj]; ring
    rw [hmD] at s1 s2
    have : u = j * D := by
      rcases Nat.lt_trichotomy u (j * D) with hlt | heq | hgt
      · have := Nat.mul_le_mul_right P (Nat.succ_le_of_lt hlt)
        rw [Nat.succ_mul] at this
        omega
      · exact heq
      · have := Nat.mul_le_mul_right P (Nat.succ_le_of_lt hgt)
        rw [Nat.succ_mul] at this
        omega
    exact ⟨j, by rw [this]; ring⟩
  · rintro ⟨j, hj⟩
    have : u * P = (j * P) * D := by rw [hj]; ring
    rw [this, roundHalfEven_exact _ _ hD]
    exact Nat.mul_mod_left _ _

theorem ParseFloat_syntax_error (s : List Char)
    (h : (ParseFloat s).2 = some NumError.ErrSyntax) : (ParseFloat s).1 = F64.fin false 0 0 := by
  unfold ParseFloat at h ⊢
  cases hsp : special s with
  | some p =>
    obtain ⟨v, rest⟩ := p
    simp only [hsp] at h ⊢
    by_cases hr : rest = []
    · rw [if_pos hr] at h; simp at h
    · rw [if_neg hr]
  | none =>
    simp only [hsp] at h ⊢
    cases hrf : readFloat s with
    | none => simp only []
    | some rf =>
      simp only [hrf] at h ⊢
      by_cases hrest : rf.rest ≠ []
      · rw [if_pos hrest]
      · rw [if_neg hrest] at h
        exfalso
        by_cases hn : (roundNearestEven (rf.mant * (if rf.hex = true then 2 else 10) ^ rf.exp.toNat)
            ((if rf.hex = true then 2 else 10) ^ (-rf.exp).toNat)).isNone = true
        · rw [if_pos hn] at h; simp at h
        · rw [if_neg hn] at h; simp at h

theorem cents_mod_100 (mant k : ℕ) (hk : k ≤ 2) :
    mant * 10 ^ (2 - k) % 100 = 0 ↔ 10 ^ k ∣ mant := by
  interval_cases k <;> simp <;> omega

theorem cents_mod_25 (mant k : ℕ) (hk : k ≤ 2) :
    mant * 10 ^ (2 - k) % 25 = 0 ↔ 10 ^ k ∣ 4 * mant := by
  interval_cases k <;> simp <;> omega

/-- For a total below `10^13` with at most two fraction digits, the comparison of rule 2 holds
exactly when the cents are zero, and that of rule 3 exactly when they are a multiple of 25. -/
theorem total_tests_of_decimal (s : String) (ip fp : List Char) (h : isDecimal s false ip fp)
    (hfp : fp.length ≤ 2) (hb : digitsVal ip < 10 ^ 13) :
    (((ParseFloat s.data).1.Mod F64.one).isZero = decide (cents ip fp % 100 = 0)) ∧
    (((ParseFloat s.data).1.Mod F64.quarter).isZero = decide (cents ip fp % 25 = 0)) := by
  rcases Nat.eq_zero_or_pos (digitsVal (ip ++ fp)) with hz | hpos
  · rw [ParseFloat_decimal_zero s false ip fp h hz]
    simp only [cents, hz, zero_mul, Nat.zero_mod, decide_True]
    constructor <;> decide
  · obtain ⟨he, hp⟩ := ParseFloat_amount s false ip fp h hb hpos
    rw [hp]
    simp only []
    set e := binExp (digitsVal (ip ++ fp)) (10 ^ fp.length) with hedef
    have hD : 0 < 10 ^ fp.length := by positivity
    have hD100 : 10 ^ fp.length ≤ 100 := by
      calc 10 ^ fp.length ≤ 10 ^ 2 := Nat.pow_le_pow_right (by norm_num) hfp
        _ = 100 := by norm_num
    have hs9 : 9 ≤ (-e).toNat := by omega
    have hP : 2 ^ 9 ≤ 2 ^ (-e).toNat := Nat.pow_le_pow_right (by norm_num) hs9
    have hP' : 2 ^ 7 ≤ 2 ^ ((-e).toNat - 2) := Nat.pow_le_pow_right (by norm_num) (by omega)
    have hsplit : 2 ^ (-e).toNat = 4 * 2 ^ ((-e).toNat - 2) := by
      have : (-e).toNat = ((-e).toNat - 2) + 2 := by omega
      conv_lhs => rw [this, pow_add]
      ring
    constructor
    · rw [Mod_one_isZero _ _ (by omega)]
      have := roundHalfEven_mod (digitsVal (ip ++ fp)) (2 ^ (-e).toNat) (10 ^ fp.length) hD
        (by norm_num at hP; omega)
      simp only [cents, this, cents_mod_100 _ _ hfp]
    · rw [Mod_quarter_isZero _ _ (by omega)]
      have h2 : (-2 - e).toNat = (-e).toNat - 2 := by omega
      have h3 : digitsVal (ip ++ fp) * 2 ^ (-e).toNat
          = (4 * digitsVal (ip ++ fp)) * 2 ^ ((-e).toNat - 2) := by rw [hsplit]; ring
      have := roundHalfEven_mod (4 * digitsVal (ip ++ fp)) (2 ^ ((-e).toNat - 2))
        (10 ^ fp.length) hD (by norm_num at hP'; omega)
      rw [h2, h3]
      simp only [cents, this, cents_mod_25 _ _ hfp]

/-! ## Lemmas on rule 5: `int(math.Ceil(price * .2))` -/

theorem ceilDiv_eq (m P k : ℕ) (hP : 0 < P) (h1 : k * P < m) (h2 : m ≤ (k + 1) * P) :
    (m + P - 1) / P = k + 1 := by
  apply Nat.div_eq_of_lt_le
  · rw [Nat.add_mul, one_mul]; omega
  · rw [Nat.succ_mul]; rw [Nat.add_mul, one_mul] at h2 ⊢; omega

theorem ceilDiv_exact (k P : ℕ) (hP : 0 < P) : (k * P + P - 1) / P = k := by
  apply Nat.div_eq_of_lt_le
  · omega
  · rw [Nat.succ_mul]; omega

theorem roundHalfEven_binExp_le (num den : ℕ) (hn : 0 < num) (hd : 0 < den)
    (he : binExp num den ≤ 0) :
    num * 2 ^ (-(binExp num den)).toNat < 2 ^ 53 * den ∧
    roundHalfEven (num * 2 ^ (-(binExp num den)).toNat) den ≤ 2 ^ 53 := by
  obtain ⟨hu, _, _⟩ := binExp_spec num den hn hd
  have ht : (binExp num den).toNat = 0 := by omega
  have hlt := (scaled_lt num den (2 ^ 53) (binExp num den)).2 (by push_cast; exact hu)
  rw [ht, pow_zero, mul_one] at hlt
  have hq : num * 2 ^ (-(binExp num den)).toNat / den < 2 ^ 53 :=
    (Nat.div_lt_iff_lt_mul hd).2 hlt
  have hm := roundHalfEven_le (num * 2 ^ (-(binExp num den)).toNat) den
  exact ⟨hlt, by omega⟩

theorem pointTwo_mul (neg : Bool) (ma : ℕ) (ea : ℤ) (hea : ea ≤ 0) :
    (F64.fin neg ma ea).mul F64.pointTwo =
      F64.ofRounded neg
        (roundNearestEven (ma * 7205759403792794) (2 ^ (-ea).toNat * 2 ^ 55)) := by
  have h1 : (ea + -55).toNat = 0 := by omega
  have h2 : (-(ea + -55)).toNat = (-ea).toNat + 55 := by omega
  simp only [F64.mul, F64.pointTwo, roundF64, h1, h2, pow_zero, mul_one, Bool.xor_false, pow_add]

theorem floor_toInt (mr : ℕ) (er : ℤ) (her : er < 0)
    (hc : mr / 2 ^ (-er).toNat < 2 ^ 63) :
    ((F64.fin true mr er).Ceil).toInt = -((mr / 2 ^ (-er).toNat : ℕ) : ℤ) := by
  have h0 : ¬ (0 ≤ er) := by omega
  simp only [F64.Ceil, h0, if_false, if_true, F64.toInt, Int.toNat_zero, pow_zero,
    mul_one, neg_zero, Nat.div_one]
  rw [if_pos]
  constructor
  · have : ((mr / 2 ^ (-er).toNat : ℕ) : ℤ) < 2 ^ 63 := by exact_mod_cast hc
    omega
  · have : (0:ℤ) ≤ ((mr / 2 ^ (-er).toNat : ℕ) : ℤ) := Int.natCast_nonneg _
    omega

theorem ceil_toInt (mr : ℕ) (er : ℤ) (her : er < 0)
    (hc : (mr + 2 ^ (-er).toNat - 1) / 2 ^ (-er).toNat < 2 ^ 63) :
    ((F64.fin false mr er).Ceil).toInt = (((mr + 2 ^ (-er).toNat - 1) / 2 ^ (-er).toNat : ℕ) : ℤ) := by
  have h0 : ¬ (0 ≤ er) := by omega
  simp only [F64.Ceil, h0, if_false, Bool.false_eq_true, F64.toInt, Int.toNat_zero, pow_zero,
    mul_one, neg_zero, Nat.div_one]
  rw [if_pos]
  constructor
  · have : (0:ℤ) ≤ (((mr + 2 ^ (-er).toNat - 1) / 2 ^ (-er).toNat : ℕ) : ℤ) := Int.natCast_nonneg _
    omega
  · exact_mod_cast hc

/-- The exact case: a price `5 * k` times `.2` rounds to `k`. -/
theorem round_product_exact (k Pa Pr : ℕ) (hPa : 0 < Pa)
    (hT : k * Pr < 2 ^ 53) :
    roundHalfEven (5 * k * Pa * 7205759403792794 * Pr) (Pa * 2 ^ 55) = k * Pr := by
  have hD : 0 < Pa * 2 ^ 55 := by positivity
  have e1 : 5 * k * Pa * 7205759403792794 * Pr = Pa * ((k * Pr) * (2 ^ 55 + 2)) := by ring
  have e2 : k * Pr * (Pa * 2 ^ 55) = Pa * ((k * Pr) * 2 ^ 55) := by ring
  apply roundHalfEven_unique _ _ _ hD
  · rw [e1, e2]
    have : 2 * (Pa * ((k * Pr) * (2 ^ 55 + 2))) = Pa * (2 * ((k * Pr) * (2 ^ 55 + 2))) := by ring
    rw [this]
    have : 2 * (Pa * ((k * Pr) * 2 ^ 55)) + Pa * 2 ^ 55 = Pa * (2 * ((k * Pr) * 2 ^ 55) + 2 ^ 55) := by
      ring
    rw [this]
    apply Nat.mul_lt_mul_of_pos_left _ hPa
    generalize k * Pr = T at hT
    omega
  · rw [e1, e2]
    have : 2 * (Pa * ((k * Pr) * 2 ^ 55)) = Pa * (2 * ((k * Pr) * 2 ^ 55)) := by ring
    rw [this]
    have : 2 * (Pa * ((k * Pr) * (2 ^ 55 + 2))) + Pa * 2 ^ 55
        = Pa * (2 * ((k * Pr) * (2 ^ 55 + 2)) + 2 ^ 55) := by ring
    rw [this]
    apply Nat.mul_lt_mul_of_pos_left _ hPa
    generalize k * Pr = T at hT
    omega

/-- The inexact case, in rational arithmetic: two roundings and the error of the constant
`.2` move the product by less than the distance of `price / 5` to the nearest integers. -/
theorem round_product_between (k : ℕ) (y u w ia ir : ℚ)
    (hy1 : 5 * (k:ℚ) + 1 / 100 ≤ y) (hy2 : y ≤ 5 * ((k:ℚ) + 1) - 1 / 100) (hy3 : y < 2 ^ 44)
    (hia' : ia ≤ 1 / 512) (hir : 0 < ir) (hir' : ir ≤ 1 / 2048)
    (hu1 : u ≤ y + ia / 2) (hu2 : y - ia / 2 ≤ u)
    (hw1 : w ≤ u * (7205759403792794 / 2 ^ 55) + ir / 2)
    (hw2 : u * (7205759403792794 / 2 ^ 55) - ir / 2 ≤ w) :
    (k:ℚ) < w ∧ w < (k:ℚ) + 1 := by
  have hk : (0:ℚ) ≤ k := Nat.cast_nonneg k
  constructor
  · norm_num at *
    linarith
  · norm_num at *
    linarith

/-- The error of a rounding, after scaling back by `P`. -/
theorem roundHalfEven_scaled_err (X P D : ℕ) (hP : 0 < P) (hD : 0 < D) :
    (roundHalfEven (X * P) D : ℚ) * (1 / P) ≤ (X:ℚ) / D + (1 / P) / 2 ∧
    (X:ℚ) / D - (1 / P) / 2 ≤ (roundHalfEven (X * P) D : ℚ) * (1 / P) := by
  obtain ⟨a1, a2⟩ := roundHalfEven_err (X * P) D hD
  push_cast at a1 a2
  have hPq : (0:ℚ) < P := by exact_mod_cast hP
  have hDq : (0:ℚ) < D := by exact_mod_cast hD
  have hia : (0:ℚ) < 1 / P := by positivity
  constructor
  · have := mul_le_mul_of_nonneg_right a1 hia.le
    have e : ((X:ℚ) * P / D + 1 / 2) * (1 / P) = (X:ℚ) / D + (1 / P) / 2 := by
      field_simp
      ring
    rw [e] at this
    exact this
  · have := mul_le_mul_of_nonneg_right a2 hia.le
    have e : ((X:ℚ) * P / D - 1 / 2) * (1 / P) = (X:ℚ) / D - (1 / P) / 2 := by
      field_simp
      ring
    rw [e] at this
    exact this

/-- The inexact case: when the price `mant / D` is not a multiple of 5, the rounded product
lies strictly between `k = ⌊price / 5⌋` and `k + 1`. -/
theorem item_inexact (mant D Pa Pr k rem : ℕ) (hD : 0 < D) (hD100 : D ≤ 100)
    (hPa : 512 ≤ Pa) (hPr : 2048 ≤ Pr) (hlt_a : mant * Pa < 2 ^ 53 * D)
    (hdm : 5 * D * k + rem = mant) (hrem0 : 0 < rem) (hrlt : rem < 5 * D) :
    k * Pr < roundHalfEven (roundHalfEven (mant * Pa) D * 7205759403792794 * Pr) (Pa * 2 ^ 55) ∧
    roundHalfEven (roundHalfEven (mant * Pa) D * 7205759403792794 * Pr) (Pa * 2 ^ 55)
      < (k + 1) * Pr := by
  have hDq : (0:ℚ) < D := by exact_mod_cast hD
  have hD100q : (D:ℚ) ≤ 100 := by exact_mod_cast hD100
  have hPaq : (512:ℚ) ≤ Pa := by exact_mod_cast hPa
  have hPrq : (2048:ℚ) ≤ Pr := by exact_mod_cast hPr
  have hPa0q : (0:ℚ) < Pa := by linarith
  have hPr0q : (0:ℚ) < Pr := by linarith
  have hmq : (mant:ℚ) = 5 * D * k + rem := by exact_mod_cast hdm.symm
  have hrem1 : (1:ℚ) ≤ rem := by exact_mod_cast hrem0
  have hrem2 : (rem:ℚ) + 1 ≤ 5 * D := by exact_mod_cast hrlt
  have hy1 : 5 * (k:ℚ) + 1 / 100 ≤ (mant:ℚ) / D := by
    rw [le_div_iff₀ hDq, hmq]
    nlinarith
  have hy2 : (mant:ℚ) / D ≤ 5 * ((k:ℚ) + 1) - 1 / 100 := by
    rw [div_le_iff₀ hDq, hmq]
    nlinarith
  have hy3 : (mant:ℚ) / D < 2 ^ 44 := by
    rw [div_lt_iff₀ hDq]
    have h1 : (mant:ℚ) * Pa < 2 ^ 53 * D := by exact_mod_cast hlt_a
    have h2 : (mant:ℚ) * 512 ≤ mant * Pa :=
      mul_le_mul_of_nonneg_left hPaq (Nat.cast_nonneg mant)
    norm_num at h1 ⊢
    linarith
  have hia : (0:ℚ) < 1 / Pa := by positivity
  have hia' : (1:ℚ) / Pa ≤ 1 / 512 := one_div_le_one_div_of_le (by norm_num) hPaq
  have hir : (0:ℚ) < 1 / Pr := by positivity
  have hir' : (1:ℚ) / Pr ≤ 1 / 2048 := one_div_le_one_div_of_le (by norm_num) hPrq
  obtain ⟨hu1, hu2⟩ := roundHalfEven_scaled_err mant Pa D (by omega) hD
  obtain ⟨hw1, hw2⟩ := roundHalfEven_scaled_err
    (roundHalfEven (mant * Pa) D * 7205759403792794) Pr (Pa * 2 ^ 55) (by omega) (by positivity)
  have e : (((roundHalfEven (mant * Pa) D * 7205759403792794 : ℕ) : ℚ)) / ((Pa * 2 ^ 55 : ℕ) : ℚ)
      = (roundHalfEven (mant * Pa) D : ℚ) * (1 / Pa) * (7205759403792794 / 2 ^ 55) := by
    push_cast
    field_simp
    norm_num
  rw [e] at hw1 hw2
  obtain ⟨b1, b2⟩ := round_product_between k _ _ _ _ _ hy1 hy2 hy3 hia' hir hir'
    hu1 hu2 hw1 hw2
  rw [mul_one_div] at b1 b2
  constructor
  · have := (lt_div_iff₀ hPr0q).1 b1
    exact_mod_cast this
  · have := (div_lt_iff₀ hPr0q).1 b2
    exact_mod_cast this

/-- The two roundings of `price * .2` keep the product between the same two integers as
`price / 5`, and on `price / 5` itself when that is an integer: `mant / D` is the price, `Pa`
and `Pr` the scalings of the two roundings. -/
theorem item_main (mant D Pa Pr : ℕ) (hD : 0 < D) (hD100 : D ≤ 100)
    (hPa : 512 ≤ Pa) (hPr : 2048 ≤ Pr) (hlt_a : mant * Pa < 2 ^ 53 * D)
    (hlt_r : roundHalfEven (mant * Pa) D * 7205759403792794 * Pr < 2 ^ 53 * (Pa * 2 ^ 55)) :
    (roundHalfEven (roundHalfEven (mant * Pa) D * 7205759403792794 * Pr) (Pa * 2 ^ 55)
      + Pr - 1) / Pr = (mant + 5 * D - 1) / (5 * D) ∧
    roundHalfEven (roundHalfEven (mant * Pa) D * 7205759403792794 * Pr) (Pa * 2 ^ 55) / Pr
      = mant / (5 * D) := by
  have hPa0 : 0 < Pa := by omega
  have hPr0 : 0 < Pr := by omega
  have h5D : 0 < 5 * D := by omega
  have hdm := Nat.div_add_mod mant (5 * D)
  have hrlt := Nat.mod_lt mant h5D
  generalize mant / (5 * D) = k at hdm ⊢
  generalize mant % (5 * D) = rem at hdm hrlt
  by_cases hz : rem = 0
  · -- the price is a multiple of 5
    have hmant : mant = k * (5 * D) := by rw [← hdm, hz]; ring
    have hma' : roundHalfEven (mant * Pa) D = 5 * k * Pa := by
      rw [hmant, show k * (5 * D) * Pa = (5 * k * Pa) * D by ring]
      exact roundHalfEven_exact _ _ hD
    rw [hma'] at hlt_r ⊢
    have hT : k * Pr < 2 ^ 53 := by
      have e1 : 5 * k * Pa * 7205759403792794 * Pr = Pa * ((k * Pr) * (2 ^ 55 + 2)) := by ring
      have e2 : 2 ^ 53 * (Pa * 2 ^ 55) = Pa * (2 ^ 53 * 2 ^ 55) := by ring
      rw [e1, e2] at hlt_r
      have := Nat.lt_of_mul_lt_mul_left hlt_r
      generalize k * Pr = T at this ⊢
      omega
    rw [round_product_exact k Pa Pr hPa0 hT, ceilDiv_exact k Pr hPr0, hmant,
      ceilDiv_exact k (5 * D) h5D]
    exact ⟨rfl, Nat.mul_div_cancel k hPr0⟩
  · -- the price is not a multiple of 5
    obtain ⟨c1, c2⟩ := item_inexact mant D Pa Pr k rem hD hD100 hPa hPr hlt_a hdm
      (by omega) hrlt
    constructor
    · rw [ceilDiv_eq _ Pr k hPr0 c1 c2.le]
      symm
      apply ceilDiv_eq mant (5 * D) k h5D
      · rw [← hdm]; have : 5 * D * k = k * (5 * D) := by ring
        omega
      · rw [← hdm, Nat.add_mul, one_mul]; have : 5 * D * k = k * (5 * D) := by ring
        omega
    · exact Nat.div_eq_of_lt_le c1.le c2

/-- The float computation `int(math.Ceil(price * .2))` on the float nearest to the non-zero
price `(-1)^neg * mant / D`, when that float has an exponent of at most `-9`. -/
theorem itemPoints_core (neg : Bool) (mant D : ℕ) (hD : 0 < D) (hD100 : D ≤ 100)
    (hpos : 0 < mant) (hea : binExp mant D ≤ -9) :
    (((F64.fin neg (roundHalfEven (mant * 2 ^ (-(binExp mant D)).toNat) D) (binExp mant D)).mul
        F64.pointTwo).Ceil).toInt =
      if neg then -((mant / (5 * D) : ℕ) : ℤ) else (((mant + 5 * D - 1) / (5 * D) : ℕ) : ℤ) := by
  obtain ⟨hlt_a, hma53⟩ := roundHalfEven_binExp_le mant D hpos hD (by omega)
  rw [pointTwo_mul _ _ _ (by omega)]
  have hsa9 : 9 ≤ (-(binExp mant D)).toNat := by omega
  generalize (-(binExp mant D)).toNat = sa at hlt_a hma53 hsa9 ⊢
  have hPa : 512 ≤ 2 ^ sa :=
    calc 512 = 2 ^ 9 := by norm_num
      _ ≤ 2 ^ sa := Nat.pow_le_pow_right (by norm_num) hsa9
  have hma_pos : 0 < roundHalfEven (mant * 2 ^ sa) D := by
    have h1 := roundHalfEven_ge (mant * 2 ^ sa) D
    have h3 : D ≤ mant * 2 ^ sa := by
      have : 1 * 2 ^ sa ≤ mant * 2 ^ sa := Nat.mul_le_mul_right _ hpos
      omega
    have h2 : 0 < mant * 2 ^ sa / D := Nat.div_pos h3 hD
    omega
  have hnum2 : 0 < roundHalfEven (mant * 2 ^ sa) D * 7205759403792794 := by positivity
  have hden2 : 0 < 2 ^ sa * 2 ^ 55 := by positivity
  have her : binExp (roundHalfEven (mant * 2 ^ sa) D * 7205759403792794) (2 ^ sa * 2 ^ 55)
      ≤ -11 := by
    have hn : roundHalfEven (mant * 2 ^ sa) D * 7205759403792794 < 2 ^ sa * 2 ^ 55 * 2 ^ 42 := by
      have h1 : roundHalfEven (mant * 2 ^ sa) D * 7205759403792794
          ≤ 2 ^ 53 * 7205759403792794 := Nat.mul_le_mul_right _ hma53
      have h2 : 512 * (2 ^ 55 * 2 ^ 42) ≤ 2 ^ sa * (2 ^ 55 * 2 ^ 42) :=
        Nat.mul_le_mul_right _ hPa
      rw [mul_assoc]
      norm_num at h1 h2 ⊢
      omega
    have hq : ((roundHalfEven (mant * 2 ^ sa) D * 7205759403792794 : ℕ) : ℚ)
        < ((2 ^ sa * 2 ^ 55 : ℕ) : ℚ) * (2:ℚ) ^ (42:ℤ) := by
      have h42 : (2:ℚ) ^ (42:ℤ) = ((2 ^ 42 : ℕ) : ℚ) := by norm_cast
      rw [h42, ← Nat.cast_mul, Nat.cast_lt]
      exact hn
    have := binExp_le _ _ 42 hnum2 hden2 (by norm_num) hq
    omega
  obtain ⟨hlt_r, hmr53⟩ := roundHalfEven_binExp_le _ _ hnum2 hden2 (show
    binExp (roundHalfEven (mant * 2 ^ sa) D * 7205759403792794) (2 ^ sa * 2 ^ 55) ≤ 0 by omega)
  rw [roundNearestEven_of_nonpos _ _ hnum2 hden2 (by omega)]
  simp only [F64.ofRounded]
  have hsr : 11 ≤ (-(binExp (roundHalfEven (mant * 2 ^ sa) D * 7205759403792794)
      (2 ^ sa * 2 ^ 55))).toNat := by omega
  have her0 : binExp (roundHalfEven (mant * 2 ^ sa) D * 7205759403792794) (2 ^ sa * 2 ^ 55) < 0 := by
    omega
  generalize binExp (roundHalfEven (mant * 2 ^ sa) D * 7205759403792794) (2 ^ sa * 2 ^ 55) = er
    at hlt_r hmr53 hsr her0 ⊢
  have hPr : 2048 ≤ 2 ^ (-er).toNat :=
    calc 2048 = 2 ^ 11 := by norm_num
      _ ≤ 2 ^ (-er).toNat := Nat.pow_le_pow_right (by norm_num) hsr
  obtain ⟨main1, main2⟩ :=
    item_main mant D (2 ^ sa) (2 ^ (-er).toNat) hD hD100 hPa hPr hlt_a hlt_r
  have hm63 : mant + 5 * D - 1 < 2 ^ 63 := by
    have h2 : mant * 1 ≤ mant * 2 ^ sa := Nat.mul_le_mul_left _ (by omega)
    norm_num at hlt_a ⊢
    omega
  have hbound1 : (mant + 5 * D - 1) / (5 * D) < 2 ^ 63 :=
    lt_of_le_of_lt (Nat.div_le_self _ _) hm63
  have hbound2 : mant / (5 * D) < 2 ^ 63 :=
    lt_of_le_of_lt (Nat.div_le_self _ _) (by omega)
  cases neg with
  | false => rw [ceil_toInt _ _ her0 (by rw [main1]; exact hbound1), main1]; rfl
  | true => rw [floor_toInt _ _ her0 (by rw [main2]; exact hbound2), main2]; rfl

theorem cents_ceil (mant k : ℕ) (hk : k ≤ 2) :
    (mant + 5 * 10 ^ k - 1) / (5 * 10 ^ k) = (mant * 10 ^ (2 - k) + 499) / 500 := by
  interval_cases k <;> simp <;> omega

theorem cents_floor (mant k : ℕ) (hk : k ≤ 2) :
    mant / (5 * 10 ^ k) = mant * 10 ^ (2 - k) / 500 := by
  interval_cases k <;> simp <;> omega

/-- For a price of integer part below `10^13` with at most two fraction digits, the float
computation `int(math.Ceil(price * .2))` returns the cents divided by 500, rounded up. -/
theorem itemPoints_of_decimal (item : Item) (neg : Bool) (ip fp : List Char)
    (h : isDecimal item.Price neg ip fp) (hfp : fp.length ≤ 2) (hb : digitsVal ip < 10 ^ 13) :
    itemPoints item =
      if neg then -((cents ip fp / 500 : ℕ) : ℤ) else (((cents ip fp + 499) / 500 : ℕ) : ℤ) := by
  rcases Nat.eq_zero_or_pos (digitsVal (ip ++ fp)) with hz | hpos
  · unfold itemPoints
    rw [ParseFloat_decimal_zero item.Price neg ip fp h hz]
    simp only [cents, hz, zero_mul]
    cases neg <;> decide!
  · obtain ⟨he, hp⟩ := ParseFloat_amount item.Price neg ip fp h hb hpos
    have hD : 0 < 10 ^ fp.length := by positivity
    have hD100 : 10 ^ fp.length ≤ 100 :=
      calc 10 ^ fp.length ≤ 10 ^ 2 := Nat.pow_le_pow_right (by norm_num) hfp
        _ = 100 := by norm_num
    unfold itemPoints
    rw [hp]
    simp only []
    rw [itemPoints_core _ _ _ hD hD100 hpos he, cents_ceil _ _ hfp, cents_floor _ _ hfp]
    rfl

/-- The exact ceiling of `price * 0.2`, for a price given in cents. -/
theorem ceil_priceValue (neg : Bool) (ip fp : List Char) :
    ⌈priceValue neg ip fp * (2 / 10)⌉ =
      if neg then -((cents ip fp / 500 : ℕ) : ℤ) else (((cents ip fp + 499) / 500 : ℕ) : ℤ) := by
  unfold priceValue
  generalize cents ip fp = n
  cases neg with
  | false =>
    simp only [Bool.false_eq_true, if_false]
    rw [Int.ceil_eq_iff]
    have h1 := Nat.div_add_mod (n + 499) 500
    have h2 := Nat.mod_lt (n + 499) (show 0 < 500 by norm_num)
    generalize (n + 499) / 500 = q at h1 ⊢
    generalize (n + 499) % 500 = r at h1 h2
    have hq : ((n:ℚ)) + 499 = 500 * q + r := by exact_mod_cast h1.symm
    have hr : (r:ℚ) ≤ 499 := by
      have : r ≤ 499 := by omega
      exact_mod_cast this
    have hr0 : (0:ℚ) ≤ r := Nat.cast_nonneg r
    push_cast
    constructor <;> linarith
  | true =>
    simp only [if_true]
    rw [Int.ceil_eq_iff]
    have h1 := Nat.div_add_mod n 500
    have h2 := Nat.mod_lt n (show 0 < 500 by norm_num)
    generalize n / 500 = q at h1 ⊢
    generalize n % 500 = r at h1 h2
    have hq : ((n:ℚ)) = 500 * q + r := by exact_mod_cast h1.symm
    have hr : (r:ℚ) + 1 ≤ 500 := by exact_mod_cast h2
    have hr0 : (0:ℚ) ≤ r := Nat.cast_nonneg r
    push_cast
    constructor <;> linarith

theorem wrap64_of_range (x : ℤ) (h1 : -(2 ^ 63) ≤ x) (h2 : x < 2 ^ 63) : wrap64 x = x := by
  unfold wrap64
  omega

theorem wrap64_add_left (a b : ℤ) : wrap64 (wrap64 a + b) = wrap64 (a + b) := by
  unfold wrap64
  omega

theorem wrap64_range (x : ℤ) : -(2 ^ 63) ≤ wrap64 x ∧ wrap64 x < 2 ^ 63 := by
  unfold wrap64
  omega

/-- The loop of rule 5 adds, modulo `2^64`, the points of the items whose trimmed description
has a byte length that is a multiple of 3. -/
theorem rule5Loop_eq (items : List Item) : ∀ points : ℤ,
    -(2 ^ 63) ≤ points → points < 2 ^ 63 →
    rule5Loop items points = wrap64 (points +
      ((items.filter (fun item => decide (len (TrimSpace item.Desc.data) % 3 = 0))).map
        itemPoints).sum) := by
  induction items with
  | nil =>
    intro points h1 h2
    simp only [rule5Loop, List.filter_nil, List.map_nil, List.sum_nil, add_zero]
    exact (wrap64_of_range points h1 h2).symm
  | cons item items ih =>
    intro points h1 h2
    by_cases hq : len (TrimSpace item.Desc.data) % 3 = 0
    · simp only [rule5Loop, hq, if_true, List.filter_cons, decide_True, List.map_cons,
        List.sum_cons]
      rw [ih _ (wrap64_range _).1 (wrap64_range _).2, wrap64_add_left, add_assoc]
    · simp only [rule5Loop, hq, if_false, List.filter_cons, decide_False, Bool.false_eq_true]
      rw [ih _ h1 h2]

/-! ## Rule 1: the retailer name -/

/-- C1, evaluated on the code: for the retailer `"Target"` rule 1 adds 1 point, not one per
character, and for `"M&M Corner Market"` it adds none, although the name has 14 letters. -/
theorem C1_rule1_whole_name_only (date time total : String) (items : List Item) :
    afterRule1 ⟨"Target", date, time, total, items⟩ = 1 ∧
    afterRule1 ⟨"M&M Corner Market", date, time, total, items⟩ = 0 := by
  constructor
  · show wrap64 (0 + ((FindAllString_anchored "Target".data).length : Int)) = 1
    decide
  · show wrap64 (0 + ((FindAllString_anchored "M&M Corner Market".data).length : Int)) = 0
    decide

/-! ## Rules 2 and 3: the total -/

theorem zero_tests :
    ((F64.fin false 0 0).Mod F64.one).isZero = true ∧
    ((F64.fin false 0 0).Mod F64.quarter).isZero = true := by
  decide

theorem afterRule1_range (receipt : Receipt) :
    0 ≤ afterRule1 receipt ∧ afterRule1 receipt ≤ 1 := by
  unfold afterRule1 FindAllString_anchored
  split <;> simp [wrap64]

/-- C5, evaluated on the code: when the total is syntactically not a number, `ParseFloat`
returns 0 with an error that the code drops, so the tests of rules 2 and 3 both hold and the
two rules add 50 and 25 points to what rule 1 left, instead of nothing. The receipt with
retailer `Target`, date `2022-01-02`, time `13:01` and no items scores 76 with the total `abc`
and with the empty total, and 1 with the total `1.10`. A price or a day that is not a number
adds nothing under rules 5 and 7. -/
theorem C5_unparseable_total_adds_75 (receipt : Receipt)
    (h : (ParseFloat receipt.Total.data).2 = some NumError.ErrSyntax) :
    tot receipt = F64.fin false 0 0 ∧
    afterRule2 receipt = afterRule1 receipt + 50 ∧
    afterRule3 receipt = afterRule1 receipt + 75 ∧
    (ParseFloat "abc".data).2 = some NumError.ErrSyntax ∧
    (ParseFloat "".data).2 = some NumError.ErrSyntax ∧
    calculatePoints false ⟨"Target", "2022-01-02", "13:01", "abc", []⟩ = some 76 ∧
    calculatePoints false ⟨"Target", "2022-01-02", "13:01", "", []⟩ = some 76 ∧
    calculatePoints false ⟨"Target", "2022-01-02", "13:01", "1.10", []⟩ = some 1 ∧
    rule5Loop [⟨"abc", "abc"⟩] 1 = 1 ∧
    calculatePoints false ⟨"Target", "2022-01-xx", "13:01", "1.10", []⟩ = some 1 := by
  have h0 : tot receipt = F64.fin false 0 0 := ParseFloat_syntax_error _ h
  obtain ⟨h1, h1'⟩ := afterRule1_range receipt
  have h2 : afterRule2 receipt = afterRule1 receipt + 50 := by
    simp only [afterRule2, h0, zero_tests.1, if_true]
    exact wrap64_of_range _ (by omega) (by omega)
  refine ⟨h0, h2, ?_, by decide!, by decide!, by decide!, by decide!, by decide!, by decide!,
    by decide!⟩
  simp only [afterRule3, h0, zero_tests.2, if_true, h2]
  rw [wrap64_of_range _ (by omega) (by omega)]
  ring

theorem C5_unparseable_total_adds_75_witness :
    afterRule3 ⟨"Target", "2022-01-02", "13:01", "abc", []⟩ =
      afterRule1 ⟨"Target", "2022-01-02", "13:01", "abc", []⟩ + 75 :=
  (C5_unparseable_total_adds_75 ⟨"Target", "2022-01-02", "13:01", "abc", []⟩
    (by decide!)).2.2.1

/-- C8, refuted as stated: the total `"4503599627370496.35"` has 35 cents, yet it parses to the
float `2^52`, so rules 2 and 3 add 75 points to the 1 point of rule 1; the total
`"1125899906842624.35"` parses to `2^50 + 0.25`, so rule 3 adds 25. -/
theorem C8_counterexample :
    cents "4503599627370496".data "35".data % 100 = 35 ∧
    afterRule1 ⟨"Target", "2022-01-01", "13:01", "4503599627370496.35", []⟩ = 1 ∧
    afterRule3 ⟨"Target", "2022-01-01", "13:01", "4503599627370496.35", []⟩ = 76 ∧
    afterRule3 ⟨"Target", "2022-01-01", "13:01", "1125899906842624.35", []⟩ = 26 := by
  decide!

/-- C8, amended: for a total that is a non-negative decimal with at most two fraction digits
and an integer part below `10^13`, rules 2 and 3 together add 50 and 25 points when the cents
are zero, 25 points when the cents are 25, 50 or 75, and nothing otherwise; `"9.00"` earns both
and `"35.35"` earns nothing. -/
theorem C8_total_rules (receipt : Receipt) (ip fp : List Char)
    (h : isDecimal receipt.Total false ip fp) (hfp : fp.length ≤ 2)
    (hb : digitsVal ip < 10 ^ 13) :
    afterRule3 receipt =
      (if cents ip fp % 100 = 0 then wrap64 (wrap64 (afterRule1 receipt + 50) + 25)
       else if cents ip fp % 25 = 0 then wrap64 (afterRule1 receipt + 25)
       else afterRule1 receipt) ∧
    (∀ store date time items,
      afterRule3 ⟨store, date, time, "9.00", items⟩ =
        wrap64 (wrap64 (afterRule1 ⟨store, date, time, "9.00", items⟩ + 50) + 25)) ∧
    (∀ store date time items,
      afterRule3 ⟨store, date, time, "35.35", items⟩ =
        afterRule1 ⟨store, date, time, "35.35", items⟩) := by
  refine ⟨?_, ?_, ?_⟩
  · obtain ⟨t1, t2⟩ := total_tests_of_decimal receipt.Total ip fp h hfp hb
    simp only [afterRule3, afterRule2, tot, t1, t2, decide_eq_true_eq]
    by_cases h100 : cents ip fp % 100 = 0
    · have h25 : cents ip fp % 25 = 0 := by omega
      rw [if_pos h25, if_pos h100, if_pos h100]
    · rw [if_neg h100, if_neg h100]
  · intro store date time items
    have t1 : ((ParseFloat "9.00".data).1.Mod F64.one).isZero = true := by decide!
    have t2 : ((ParseFloat "9.00".data).1.Mod F64.quarter).isZero = true := by decide!
    simp only [afterRule3, afterRule2, tot, t1, t2, if_true]
  · intro store date time items
    have t1 : ((ParseFloat "35.35".data).1.Mod F64.one).isZero = false := by decide!
    have t2 : ((ParseFloat "35.35".data).1.Mod F64.quarter).isZero = false := by decide!
    simp only [afterRule3, afterRule2, tot, t1, t2, if_false, Bool.false_eq_true]

theorem C8_total_rules_witness :
    afterRule3 ⟨"Target", "2022-01-01", "13:01", "12.50", []⟩ =
      (if cents "12".data "50".data % 100 = 0
        then wrap64 (wrap64 (afterRule1 ⟨"Target", "2022-01-01", "13:01", "12.50", []⟩ + 50) + 25)
       else if cents "12".data "50".data % 25 = 0
        then wrap64 (afterRule1 ⟨"Target", "2022-01-01", "13:01", "12.50", []⟩ + 25)
       else afterRule1 ⟨"Target", "2022-01-01", "13:01", "12.50", []⟩) :=
  (C8_total_rules ⟨"Target", "2022-01-01", "13:01", "12.50", []⟩ "12".data "50".data
    ⟨by decide, by decide, Or.inl (by decide)⟩ (by decide) (by decide)).1

/-! ## Rule 5: the item descriptions and prices -/

/-- C9, refuted as stated: the description `"éa"` has 2 characters but 3 bytes, and its item
earns the 3 points; `"éab"` has 3 characters but 4 bytes, and its item earns nothing. The
price `5.0000000000000000001` parses to the float 5 and earns 1 point, where the ceiling of the
exact product is 2; the price `100000000000000001` parses to the float `10^17` and earns
`2 * 10^16` points, where the ceiling of the exact product is one more. -/
theorem C9_counterexample :
    "éa".length = 2 ∧ rule5Loop [⟨"éa", "12.25"⟩] 0 = 3 ∧
    "éab".length = 3 ∧ rule5Loop [⟨"éab", "12.25"⟩] 0 = 0 ∧
    rule5Loop [⟨"abc", "5.0000000000000000001"⟩] 0 = 1 ∧
    ⌈(50000000000000000001 / 10000000000000000000 : ℚ) * (2 / 10)⌉ = 2 ∧
    rule5Loop [⟨"abc", "100000000000000001"⟩] 0 = 20000000000000000 ∧
    ⌈(100000000000000001 : ℚ) * (2 / 10)⌉ = 20000000000000001 := by
  refine ⟨by decide, by decide!, by decide, by decide!, by decide!, ?_, by decide!, ?_⟩
  · rw [Int.ceil_eq_iff]; norm_num
  · rw [Int.ceil_eq_iff]; norm_num

/-- C9, amended: for items whose prices are decimals with at most two fraction digits and an
integer part below `10^13`, the loop of rule 5 adds to `points`, modulo `2^64`, the sum over
exactly those items whose whitespace-trimmed description has a UTF-8 byte length that is a
multiple of 3, length 0 included, of the exact ceiling of price × 0.2; the item
`"Emils Cheese Pizza"` priced `"12.25"` earns 3 points, and so does an item with a blank
description. -/
theorem C9_rule5_sum (items : List Item) (points : ℤ) (negOf : Item → Bool)
    (ipOf fpOf : Item → List Char)
    (hpoints : -(2 ^ 63) ≤ points ∧ points < 2 ^ 63)
    (hprice : ∀ item ∈ items, isDecimal item.Price (negOf item) (ipOf item) (fpOf item) ∧
      (fpOf item).length ≤ 2 ∧ digitsVal (ipOf item) < 10 ^ 13) :
    rule5Loop items points = wrap64 (points +
      ((items.filter (fun item => decide (len (TrimSpace item.Desc.data) % 3 = 0))).map
        (fun item => ⌈priceValue (negOf item) (ipOf item) (fpOf item) * (2 / 10)⌉)).sum) ∧
    rule5Loop [⟨"Emils Cheese Pizza", "12.25"⟩] 0 = 3 ∧
    rule5Loop [⟨"   ", "12.25"⟩] 0 = 3 := by
  refine ⟨?_, by decide!, by decide!⟩
  have hmap : (items.filter (fun item => decide (len (TrimSpace item.Desc.data) % 3 = 0))).map
      itemPoints =
      (items.filter (fun item => decide (len (TrimSpace item.Desc.data) % 3 = 0))).map
        (fun item => ⌈priceValue (negOf item) (ipOf item) (fpOf item) * (2 / 10)⌉) := by
    apply List.map_congr_left
    intro item hitem
    obtain ⟨h1, h2, h3⟩ := hprice item (List.mem_of_mem_filter hitem)
    rw [itemPoints_of_decimal item _ _ _ h1 h2 h3, ceil_priceValue]
  rw [rule5Loop_eq items points hpoints.1 hpoints.2, hmap]

theorem C9_rule5_sum_witness :
    rule5Loop [⟨"Emils Cheese Pizza", "12.25"⟩, ⟨"Gatorade", "12.25"⟩] 7 = wrap64 (7 +
      (([⟨"Emils Cheese Pizza", "12.25"⟩, ⟨"Gatorade", "12.25"⟩].filter
        (fun item : Item => decide (len (TrimSpace item.Desc.data) % 3 = 0))).map
        (fun _ => ⌈priceValue false "12".data "25".data * (2 / 10)⌉)).sum) :=
  (C9_rule5_sum [⟨"Emils Cheese Pizza", "12.25"⟩, ⟨"Gatorade", "12.25"⟩] 7 (fun _ => false)
    (fun _ => "12".data) (fun _ => "25".data) ⟨by decide, by decide⟩
    (fun item hitem => by
      have hp : item.Price = "12.25" := by
        simp only [List.mem_cons, List.mem_singleton, List.not_mem_nil, or_false] at hitem
        rcases hitem with h | h <;> rw [h]
      exact ⟨⟨(by decide : isNumeral "12".data = true),
        (by decide : ("25".data).all isDigit = true), Or.inl (by rw [hp]; rfl)⟩,
        (by decide : ("25".data).length ≤ 2), (by decide : digitsVal "12".data < 10 ^ 13)⟩)).1

theorem afterRule3_range (receipt : Receipt) : 0 ≤ afterRule3 receipt ∧ afterRule3 receipt ≤ 76 := by
  have h1 : 0 ≤ afterRule1 receipt ∧ afterRule1 receipt ≤ 1 := by
    unfold afterRule1 FindAllString_anchored
    split <;> simp [wrap64]
  have h2 : 0 ≤ afterRule2 receipt ∧ afterRule2 receipt ≤ 51 := by
    unfold afterRule2
    split
    · rw [wrap64_of_range _ (by omega) (by omega)]; omega
    · omega
  unfold afterRule3
  split
  · rw [wrap64_of_range _ (by omega) (by omega)]; omega
  · omega

theorem afterRule4_range (receipt : Receipt) (hn : receipt.Items.length ≤ 10 ^ 6) :
    0 ≤ afterRule4 receipt ∧ afterRule4 receipt ≤ 2500076 := by
  obtain ⟨h1, h2⟩ := afterRule3_range receipt
  have h3 : (((receipt.Items.length / 2 : ℕ) : ℤ)) ≤ 500000 := by
    have : receipt.Items.length / 2 ≤ 500000 := by omega
    exact_mod_cast this
  have h4 : (0:ℤ) ≤ ((receipt.Items.length / 2 : ℕ) : ℤ) := Int.natCast_nonneg _
  unfold afterRule4
  rw [wrap64_of_range (((receipt.Items.length / 2 : ℕ) : ℤ) * 5) (by omega) (by omega),
    wrap64_of_range _ (by omega) (by omega)]
  omega

theorem sum_range (l : List ℤ) (B : ℤ) (h : ∀ x ∈ l, 0 ≤ x ∧ x ≤ B) :
    0 ≤ l.sum ∧ l.sum ≤ l.length * B := by
  induction l with
  | nil => simp
  | cons a t ih =>
    obtain ⟨h1, h2⟩ := h a (by simp)
    obtain ⟨h3, h4⟩ := ih (fun x hx => h x (by simp [hx]))
    simp only [List.sum_cons, List.length_cons]
    push_cast
    constructor
    · omega
    · nlinarith

theorem cents_lt (ip fp : List Char) (hfp : fp.all isDigit = true) (hl : fp.length ≤ 2)
    (hb : digitsVal ip < 10 ^ 13) : cents ip fp < 10 ^ 15 := by
  rw [List.all_eq_true] at hfp
  have h1 := digitsVal_lt fp hfp
  unfold cents
  rw [digitsVal_append]
  generalize digitsVal fp = f at h1
  generalize digitsVal ip = i at hb
  generalize fp.length = k at hl h1
  interval_cases k <;> simp at h1 ⊢ <;> omega

/-- The points of an item with a non-negative price below `10^13`. -/
theorem itemPoints_range (item : Item) (ip fp : List Char)
    (h : isDecimal item.Price false ip fp) (hfp : fp.length ≤ 2) (hb : digitsVal ip < 10 ^ 13) :
    0 ≤ itemPoints item ∧ itemPoints item ≤ 2000000000000 := by
  rw [itemPoints_of_decimal item false ip fp h hfp hb]
  have hc := cents_lt ip fp h.2.1 hfp hb
  simp only [Bool.false_eq_true, if_false]
  constructor
  · exact Int.natCast_nonneg _
  · have : (cents ip fp + 499) / 500 ≤ 2000000000000 := by
      norm_num at hc
      omega
    exact_mod_cast this

/-- C6, refuted as stated: the valid receipt of retailer `"Target"`, date `2022-01-02`, time
`13:01` and total `1.10`, with the one item `"abc"` of price `-100.00`, scores `-19`: 1 point for
the retailer and `-20` for the item. -/
theorem C6_counterexample :
    calculatePoints false ⟨"Target", "2022-01-02", "13:01", "1.10", [⟨"abc", "-100.00"⟩]⟩
      = some (-19) ∧
    itemPoints ⟨"abc", "-100.00"⟩ = -20 := by
  decide!

/-- C6, amended: for a receipt whose date has the year-month-day form and which has at most
`10^6` items, each priced by a non-negative decimal with at most two fraction digits and an
integer part below `10^13`, `calculatePoints` returns a non-negative integer, whatever the
total, the time and the descriptions are. -/
theorem C6_score_nonneg (IsLLM : Bool) (receipt : Receipt) (y m d : List Char)
    (ipOf fpOf : Item → List Char)
    (hdate : isYearMonthDay receipt.Date y m d)
    (hitems : receipt.Items.length ≤ 10 ^ 6)
    (hprice : ∀ item ∈ receipt.Items, isDecimal item.Price false (ipOf item) (fpOf item) ∧
      (fpOf item).length ≤ 2 ∧ digitsVal (ipOf item) < 10 ^ 13) :
    ∃ p, calculatePoints IsLLM receipt = some p ∧ 0 ≤ p := by
  obtain ⟨h4a, h4b⟩ := afterRule4_range receipt hitems
  -- rule 5
  have hS := sum_range
    ((receipt.Items.filter (fun item => decide (len (TrimSpace item.Desc.data) % 3 = 0))).map
      itemPoints) 2000000000000 (by
        intro x hx
        obtain ⟨item, hitem, rfl⟩ := List.mem_map.1 hx
        obtain ⟨h1, h2, h3⟩ := hprice item (List.mem_of_mem_filter hitem)
        exact itemPoints_range item _ _ h1 h2 h3)
  have hlen : (((receipt.Items.filter
      (fun item => decide (len (TrimSpace item.Desc.data) % 3 = 0))).map itemPoints).length : ℤ)
      ≤ 10 ^ 6 := by
    have h1 := List.length_filter_le
      (fun item => decide (len (TrimSpace item.Desc.data) % 3 = 0)) receipt.Items
    rw [List.length_map]
    have : (receipt.Items.filter
      (fun item => decide (len (TrimSpace item.Desc.data) % 3 = 0))).length ≤ 10 ^ 6 := by omega
    exact_mod_cast this
  have h5 : 0 ≤ afterRule5 receipt ∧ afterRule5 receipt ≤ 2000000000002500076 := by
    unfold afterRule5
    rw [rule5Loop_eq _ _ (by omega) (by omega)]
    obtain ⟨s1, s2⟩ := hS
    have s3 : ((receipt.Items.filter
      (fun item => decide (len (TrimSpace item.Desc.data) % 3 = 0))).map itemPoints).sum
        ≤ 10 ^ 6 * 2000000000000 := by nlinarith
    rw [wrap64_of_range _ (by omega) (by norm_num at s3 ⊢; omega)]
    norm_num at s3 ⊢
    omega
  have h6 : 0 ≤ afterRule6 IsLLM receipt ∧ afterRule6 IsLLM receipt ≤ 2000000000002500081 := by
    unfold afterRule6
    split
    · rw [wrap64_of_range _ (by omega) (by omega)]; omega
    · omega
  have hs := Split_yearMonthDay receipt.Date y m d hdate
  have hg : [y, m, d].get? 2 = some d := rfl
  have h7 : ∃ p, afterRule7 IsLLM receipt = some p ∧ 0 ≤ p ∧ p ≤ 2000000000002500087 := by
    simp only [afterRule7, hs, hg]
    split
    · exact ⟨_, rfl, by rw [wrap64_of_range _ (by omega) (by omega)]; omega⟩
    · exact ⟨_, rfl, by omega⟩
  obtain ⟨p, hp, hp0, hp1⟩ := h7
  simp only [calculatePoints, hp]
  refine ⟨_, rfl, ?_⟩
  unfold rule8
  split
  · exact le_refl 0
  · split
    · rw [wrap64_of_range _ (by omega) (by omega)]; omega
    · exact hp0

theorem C6_score_nonneg_witness :
    ∃ p, calculatePoints false
      ⟨"Target", "2022-01-01", "13:01", "35.35", [⟨"Emils Cheese Pizza", "12.25"⟩]⟩ = some p ∧
      0 ≤ p :=
  C6_score_nonneg false
    ⟨"Target", "2022-01-01", "13:01", "35.35", [⟨"Emils Cheese Pizza", "12.25"⟩]⟩
    "2022".data "01".data "01".data (fun _ => "12".data) (fun _ => "25".data)
    ⟨by decide, by decide, by decide, by decide, by decide, by decide⟩ (by decide)
    (fun item hitem => by
      have hp : item.Price = "12.25" := by
        simp only [List.mem_singleton] at hitem
        rw [hitem]
      exact ⟨⟨(by decide : isNumeral "12".data = true),
        (by decide : ("25".data).all isDigit = true), Or.inl (by rw [hp]; rfl)⟩,
        (by decide : ("25".data).length ≤ 2), (by decide : digitsVal "12".data < 10 ^ 13)⟩)

/-! ## Rules 7 and 8: the purchase date and time -/

/-- C2: when the purchase date has the year-month-day form and the purchase time does not
parse with the layout `15:04`, `calculatePoints` returns 0, whatever the flag, the retailer, the
total and the items are. -/
theorem C2_unparseable_time_scores_zero (IsLLM : Bool) (receipt : Receipt) (y m d : List Char)
    (hdate : isYearMonthDay receipt.Date y m d) (htime : timeParse receipt.Time.data = none) :
    calculatePoints IsLLM receipt = some 0 := by
  have hs := Split_yearMonthDay receipt.Date y m d hdate
  have hg : [y, m, d].get? 2 = some d := rfl
  simp only [calculatePoints, afterRule7, hs, hg, rule8, htime]
  by_cases hodd : Int.tmod (Atoi d) 2 ≠ 0
  · rw [if_pos hodd]
  · rw [if_neg hodd]

theorem C2_unparseable_time_scores_zero_witness :
    timeParse "1:1pm".data = none ∧
    calculatePoints true ⟨"Target", "2022-01-01", "1:1pm", "9.00", [⟨"abc", "1.00"⟩]⟩ = some 0 :=
  ⟨by decide,
   C2_unparseable_time_scores_zero true ⟨"Target", "2022-01-01", "1:1pm", "9.00", [⟨"abc", "1.00"⟩]⟩
     "2022".data "01".data "01".data
     ⟨by decide, by decide, by decide, by decide, by decide, by decide⟩ (by decide)⟩

theorem rule8_of_parse (time : String) (points : Int) (hour min : Nat) (hmin : min < 60)
    (h : timeParse time.data = some ⟨hour * 3600 + min * 60⟩) :
    rule8 time points =
      if (14 < hour ∨ (hour = 14 ∧ 0 < min)) ∧ hour < 16 then wrap64 (points + 10) else points := by
  simp only [rule8, h, GoTime.After, GoTime.Before, start, «end», Bool.and_eq_true,
    decide_eq_true_eq]
  by_cases hc : (14 < hour ∨ (hour = 14 ∧ 0 < min)) ∧ hour < 16
  · rw [if_pos hc, if_pos (by omega)]
  · rw [if_neg hc, if_neg (by omega)]

/-- C3: when the purchase time parses, as hour `hour` and minute `min`, rule 8 adds 10 points
exactly when the time is strictly after 14:00 and strictly before 16:00; `14:33` and `15:59`
earn the 10 points, `14:00` and `16:00` do not. -/
theorem C3_afternoon_window (IsLLM : Bool) (receipt : Receipt) (points : Int) (t : GoTime)
    (h7 : afterRule7 IsLLM receipt = some points) (ht : timeParse receipt.Time.data = some t) :
    (∃ hour min, hour < 24 ∧ min < 60 ∧ t = ⟨hour * 3600 + min * 60⟩ ∧
      calculatePoints IsLLM receipt =
        some (if (14 < hour ∨ (hour = 14 ∧ 0 < min)) ∧ hour < 16 then wrap64 (points + 10)
              else points)) ∧
    (∀ p, rule8 "14:33" p = wrap64 (p + 10)) ∧ (∀ p, rule8 "15:59" p = wrap64 (p + 10)) ∧
    (∀ p, rule8 "14:00" p = p) ∧ (∀ p, rule8 "16:00" p = p) := by
  refine ⟨?_, ?_, ?_, ?_, ?_⟩
  · obtain ⟨hour, min, hh, hm, rfl⟩ := timeParse_some _ _ ht
    refine ⟨hour, min, hh, hm, rfl, ?_⟩
    simp only [calculatePoints, h7]
    rw [rule8_of_parse receipt.Time points hour min hm ht]
  · intro p
    rw [rule8_of_parse "14:33" p 14 33 (by decide) (by decide)]; simp
  · intro p
    rw [rule8_of_parse "15:59" p 15 59 (by decide) (by decide)]; simp
  · intro p
    rw [rule8_of_parse "14:00" p 14 0 (by decide) (by decide)]; simp
  · intro p
    rw [rule8_of_parse "16:00" p 16 0 (by decide) (by decide)]; simp

theorem C3_afternoon_window_witness :
    calculatePoints false ⟨"Target", "2022-01-01", "14:33", "35.35", []⟩ = some 17 ∧
    ∃ hour min, hour < 24 ∧ min < 60 ∧ (⟨14 * 3600 + 33 * 60⟩ : GoTime) = ⟨hour * 3600 + min * 60⟩ ∧
      calculatePoints false ⟨"Target", "2022-01-01", "14:33", "35.35", []⟩ =
        some (if (14 < hour ∨ (hour = 14 ∧ 0 < min)) ∧ hour < 16 then wrap64 (7 + 10) else 7) :=
  ⟨by decide!,
   (C3_afternoon_window false ⟨"Target", "2022-01-01", "14:33", "35.35", []⟩ 7 ⟨14 * 3600 + 33 * 60⟩
     (by decide!) (by decide)).1⟩

/-- C4, evaluated on the code: for a purchase date with fewer than three dash-separated parts,
such as the empty string or `"2022-01"`, the index expression `strings.Split(...)[2]` panics,
whatever the other fields are. -/
theorem C4_short_date_panics (IsLLM : Bool) (store time total : String) (items : List Item) :
    calculatePoints IsLLM ⟨store, "", time, total, items⟩ = none ∧
    calculatePoints IsLLM ⟨store, "2022-01", time, total, items⟩ = none := by
  have h1 : (Split '-' "".data).get? 2 = none := by decide
  have h2 : (Split '-' "2022-01".data).get? 2 = none := by decide
  constructor
  · simp only [calculatePoints, afterRule7, h1]
  · simp only [calculatePoints, afterRule7, h2]

theorem tmod_two_natCast (n : Nat) : Int.tmod (n : Int) 2 ≠ 0 ↔ n % 2 = 1 := by
  rw [Int.tmod_eq_emod (Int.natCast_nonneg n) (by decide)]
  omega

/-- C10: for a purchase date `y-m-d` of the year-month-day form, rule 7 adds 6 points exactly
when the day of the month `d` is odd; `2022-03-15` earns the 6 points and `2022-01-02` earns
none. -/
theorem C10_odd_day (IsLLM : Bool) (receipt : Receipt) (y m d : List Char)
    (hdate : isYearMonthDay receipt.Date y m d) :
    afterRule7 IsLLM receipt =
      some (if digitsVal d % 2 = 1 then wrap64 (afterRule6 IsLLM receipt + 6)
            else afterRule6 IsLLM receipt) ∧
    (∀ flag store time total items,
      afterRule7 flag ⟨store, "2022-03-15", time, total, items⟩ =
        some (wrap64 (afterRule6 flag ⟨store, "2022-03-15", time, total, items⟩ + 6))) ∧
    (∀ flag store time total items,
      afterRule7 flag ⟨store, "2022-01-02", time, total, items⟩ =
        some (afterRule6 flag ⟨store, "2022-01-02", time, total, items⟩)) := by
  have key : ∀ (flag : Bool) (r : Receipt) (y m d : List Char), isYearMonthDay r.Date y m d →
      afterRule7 flag r =
        some (if digitsVal d % 2 = 1 then wrap64 (afterRule6 flag r + 6) else afterRule6 flag r) := by
    intro flag r y m d h
    have hs := Split_yearMonthDay r.Date y m d h
    have ha := Atoi_short_numeral d h.2.2.1 h.2.2.2.2.1
    have hg : [y, m, d].get? 2 = some d := rfl
    simp only [afterRule7, hs, hg, ha]
    by_cases hodd : digitsVal d % 2 = 1
    · rw [if_pos ((tmod_two_natCast _).2 hodd), if_pos hodd]
    · rw [if_neg (fun h => hodd ((tmod_two_natCast _).1 h)), if_neg hodd]
  refine ⟨key IsLLM receipt y m d hdate, ?_, ?_⟩
  · intro flag store time total items
    have := key flag ⟨store, "2022-03-15", time, total, items⟩ "2022".data "03".data "15".data
      ⟨by decide, by decide, by decide, by decide, by decide, rfl⟩
    simpa using this
  · intro flag store time total items
    have := key flag ⟨store, "2022-01-02", time, total, items⟩ "2022".data "01".data "02".data
      ⟨by decide, by decide, by decide, by decide, by decide, rfl⟩
    simpa using this

theorem C10_odd_day_witness :
    afterRule7 false ⟨"Target", "2022-03-15", "13:01", "35.35", []⟩ =
      some (if digitsVal "15".data % 2 = 1
            then wrap64 (afterRule6 false ⟨"Target", "2022-03-15", "13:01", "35.35", []⟩ + 6)
            else afterRule6 false ⟨"Target", "2022-03-15", "13:01", "35.35", []⟩) :=
  (C10_odd_day false ⟨"Target", "2022-03-15", "13:01", "35.35", []⟩ "2022".data "03".data "15".data
    ⟨by decide, by decide, by decide, by decide, by decide, by decide⟩).1

/-! ## Rule 6: the generation flag -/

/-- C7, evaluated on the code: in a process started with `GENERATED_BY_LLM=true` the function
`LLM` would enable the flag, and so would a `main` that began by calling it; but `main` never
calls it, so the flag stays disabled, whatever the environment is, and every served score is
the one computed without the 5 points of rule 6. -/
theorem C7_flag_stays_disabled (env : Env) (receipt : Receipt) :
    LLM (fun name => if name = "GENERATED_BY_LLM" then some "true" else none) false = true ∧
    (MainStmt.callLLM :: mainBody).foldl
      (execStmt (fun name => if name = "GENERATED_BY_LLM" then some "true" else none)) false
      = true ∧
    mainIsLLM env = false ∧
    servedPoints env receipt = calculatePoints false receipt ∧
    servedPoints (fun name => if name = "GENERATED_BY_LLM" then some "true" else none)
      ⟨"Target", "2022-01-01", "13:01", "35.35", []⟩ = some 7 ∧
    calculatePoints true ⟨"Target", "2022-01-01", "13:01", "35.35", []⟩ = some 12 := by
  refine ⟨by decide, by decide, rfl, rfl, by decide!, by decide!⟩

/-! ## Lemmas on the patterns -/

theorem matchHere_endText (atStart : Bool) (s : List Char) :
    matchHere [Atom.endText] atStart s = if s.isEmpty then some 0 else none := by
  simp only [matchHere]

theorem greedy_endText (s : List Char) : ∀ atStart : Bool,
    greedy isAlnum (matchHere [Atom.endText]) atStart s =
      if s.all isAlnum then some s.length else none := by
  induction s with
  | nil => intro atStart; simp [greedy, matchHere_endText]
  | cons c t ih =>
    intro atStart
    by_cases hc : isAlnum c = true
    · simp only [greedy, hc, if_true]
      rw [ih false, matchHere_endText]
      by_cases ht : t.all isAlnum = true
      · simp [hc, ht]
      · simp [hc, ht]
    · simp only [greedy, hc, matchHere_endText]
      simp [hc]

theorem matchHere_anchored (s : List Char) (atStart : Bool) :
    matchHere anchoredPattern atStart s =
      if atStart && s.all isAlnum then some s.length else none := by
  cases atStart
  · simp [anchoredPattern, matchHere]
  · show greedy isAlnum (matchHere [Atom.endText]) true s = _
    rw [greedy_endText]
    simp

theorem doExecute_anchored_false (s : List Char) : doExecute anchoredPattern false s = none := by
  induction s with
  | nil => simp [doExecute, matchHere_anchored]
  | cons c t ih => simp [doExecute, matchHere_anchored, ih]

theorem doExecute_anchored_true (s : List Char) :
    doExecute anchoredPattern true s = if s.all isAlnum then some (0, s.length) else none := by
  cases s with
  | nil => simp [doExecute, matchHere_anchored]
  | cons c t =>
    by_cases h : (c :: t).all isAlnum = true
    · simp only [doExecute, matchHere_anchored, Bool.true_and, h, if_true]
    · simp only [doExecute, matchHere_anchored, Bool.true_and, h, doExecute_anchored_false]
      simp

/-- The general matcher, run on the anchored pattern, finds what `FindAllString_anchored`
says: the whole text when all its characters are in the class, nothing otherwise. -/
theorem FindAllString_anchoredPattern (s : List Char) :
    FindAllString anchoredPattern s = FindAllString_anchored s := by
  unfold FindAllString FindAllString_anchored
  by_cases h : s.all isAlnum = true
  · rw [if_pos h]
    cases s with
    | nil => simp [allMatches, doExecute_anchored_true]
    | cons c t =>
      simp only [allMatches, doExecute_anchored_true, h, if_true, List.length_cons]
      simp [allMatches, doExecute_anchored_false]
  · rw [if_neg h]
    simp only [allMatches, doExecute_anchored_true, h]
    simp

theorem doExecute_class_none (s : List Char) : ∀ atStart : Bool,
    doExecute classPattern atStart s = none → s.filter isAlnum = [] := by
  induction s with
  | nil => intro _ _; rfl
  | cons c t ih =>
    intro atStart h
    by_cases hc : isAlnum c = true
    · simp [doExecute, classPattern, matchHere, hc] at h
    · simp only [doExecute, classPattern, matchHere, hc] at h
      simp only [Bool.false_eq_true, if_false, Option.map_eq_none'] at h
      rw [List.filter_cons_of_neg hc]
      exact ih false h

theorem doExecute_class_some (s : List Char) : ∀ (atStart : Bool) (i k : Nat),
    doExecute classPattern atStart s = some (i, k) →
    k = 1 ∧ i < s.length ∧ ∃ c, (s.drop i).take 1 = [c] ∧
      s.filter isAlnum = c :: (s.drop (i + 1)).filter isAlnum := by
  induction s with
  | nil => intro atStart i k h; simp [doExecute, classPattern, matchHere] at h
  | cons c t ih =>
    intro atStart i k h
    by_cases hc : isAlnum c = true
    · simp [doExecute, classPattern, matchHere, hc] at h
      obtain ⟨rfl, rfl⟩ := h
      refine ⟨rfl, by simp, c, by simp, ?_⟩
      simp [List.filter_cons_of_pos, hc]
    · simp only [doExecute, classPattern, matchHere, hc] at h
      simp only [Bool.false_eq_true, if_false, Option.map_eq_some'] at h
      obtain ⟨⟨i', k'⟩, h', heq⟩ := h
      simp only [Prod.mk.injEq] at heq
      obtain ⟨rfl, rfl⟩ := heq
      obtain ⟨hk, hi, c', hc', hf⟩ := ih false i' k' h'
      refine ⟨hk, by simp; omega, c', by simpa using hc', ?_⟩
      rw [List.filter_cons_of_neg hc]
      simpa using hf

theorem allMatches_class : ∀ (fuel : Nat) (s : List Char) (atStart prevHere : Bool),
    s.length < fuel →
    allMatches classPattern fuel atStart prevHere s = (s.filter isAlnum).map (fun c => [c]) := by
  intro fuel
  induction fuel with
  | zero => intro s _ _ h; omega
  | succ fuel ih =>
    intro s atStart prevHere h
    cases hd : doExecute classPattern atStart s with
    | none =>
      simp only [allMatches, hd]
      rw [doExecute_class_none s atStart hd]; rfl
    | some m =>
      obtain ⟨i, k⟩ := m
      obtain ⟨rfl, hi, c, hc, hf⟩ := doExecute_class_some s atStart i k hd
      simp only [allMatches, hd]
      rw [if_neg (by omega), hc, hf, ih _ false true (by simp; omega)]
      rfl

/-- The unanchored pattern `[a-zA-Z0-9]` matches each character of the class, one by one. -/
theorem FindAllString_classPattern (s : List Char) :
    FindAllString classPattern s = (s.filter isAlnum).map (fun c => [c]) :=
  allMatches_class _ _ _ _ (Nat.lt_succ_self _)

theorem length_le_len (s : List Char) : s.length ≤ len s := by
  induction s with
  | nil => simp [len]
  | cons c t ih =>
    have hc : 1 ≤ c.utf8Size := by
      simp only [Char.utf8Size]
      split_ifs <;> omega
    simp only [len, List.map_cons, List.sum_cons, List.length_cons] at ih ⊢
    omega


/-! ## Rule 1 in the two implementations -/

/-- C20: for every retailer name, rule 1 adds what the anchored pattern `^[a-zA-Z0-9]*$` finds,
which is at most 1 point: exactly 1 when every character of the name is an ASCII letter or
digit, the empty name included, and 0 as soon as the name has a character that is not. -/
theorem C20_rule1_at_most_one (receipt : Receipt) :
    afterRule1 receipt =
      wrap64 (0 + ((FindAllString anchoredPattern receipt.Store.data).length : Int)) ∧
    afterRule1 receipt ≤ 1 ∧
    ((∀ c ∈ receipt.Store.data, isAlnum c = true) → afterRule1 receipt = 1) ∧
    ((∃ c ∈ receipt.Store.data, isAlnum c = false) → afterRule1 receipt = 0) ∧
    (receipt.Store = "" → afterRule1 receipt = 1) := by
  have hval : afterRule1 receipt = if receipt.Store.data.all isAlnum then 1 else 0 := by
    unfold afterRule1 FindAllString_anchored
    split <;> simp [wrap64]
  refine ⟨?_, ?_, ?_, ?_, ?_⟩
  · rw [FindAllString_anchoredPattern]; rfl
  · rw [hval]; split <;> decide
  · intro h
    rw [hval, if_pos (List.all_eq_true.2 h)]
  · rintro ⟨c, hc, hcl⟩
    rw [hval, if_neg]
    intro hall
    have := List.all_eq_true.1 hall c hc
    rw [hcl] at this
    exact Bool.false_ne_true this
  · intro h
    rw [hval, h]
    rfl

theorem C20_rule1_at_most_one_witness :
    afterRule1 ⟨"Walgreens", "2022-01-02", "08:13", "2.65", []⟩ = 1 ∧
    afterRule1 ⟨"M&M Corner Market", "2022-03-20", "14:33", "9.00", []⟩ = 0 ∧
    afterRule1 ⟨"", "2022-03-20", "14:33", "9.00", []⟩ = 1 :=
  ⟨(C20_rule1_at_most_one ⟨"Walgreens", "2022-01-02", "08:13", "2.65", []⟩).2.2.1 (by decide),
   (C20_rule1_at_most_one ⟨"M&M Corner Market", "2022-03-20", "14:33", "9.00", []⟩).2.2.2.1
     ⟨'&', by decide, by decide⟩,
   (C20_rule1_at_most_one ⟨"", "2022-03-20", "14:33", "9.00", []⟩).2.2.2.2 rfl⟩

/-- C19: for every retailer name (the byte length of a Go string is below `2^63`), the
retailer rule of the alternate implementation adds one point per ASCII letter or digit
occurring anywhere in the name: 6 for `Target`, and 14 for `M&M Corner Market`, whose
ampersand and spaces earn nothing and take nothing away. -/
theorem C19_retailer_rule_counts_characters (receipt : ReciptChecker.Receipt)
    (hlen : len receipt.Retailer.data < 2 ^ 63) :
    ReciptChecker.afterRetailer receipt = (receipt.Retailer.data.countP isAlnum : Int) ∧
    (∀ date time items total,
      ReciptChecker.afterRetailer ⟨"Target", date, time, items, total⟩ = 6) ∧
    (∀ date time items total,
      ReciptChecker.afterRetailer ⟨"M&M Corner Market", date, time, items, total⟩ = 14) := by
  have key : ∀ r : ReciptChecker.Receipt, len r.Retailer.data < 2 ^ 63 →
      ReciptChecker.afterRetailer r = (r.Retailer.data.countP isAlnum : Int) := by
    intro r h
    unfold ReciptChecker.afterRetailer
    rw [FindAllString_classPattern, List.length_map, ← List.countP_eq_length_filter, zero_add]
    have h1 := length_le_len r.Retailer.data
    have h2 : r.Retailer.data.countP isAlnum ≤ r.Retailer.data.length := List.countP_le_length _
    apply wrap64_of_range <;> omega
  refine ⟨key receipt hlen, ?_, ?_⟩
  · intro date time items total
    rw [key _ (show len "Target".data < 2 ^ 63 by decide)]
    show (("Target".data.countP isAlnum : Nat) : Int) = 6
    decide
  · intro date time items total
    rw [key _ (show len "M&M Corner Market".data < 2 ^ 63 by decide)]
    show (("M&M Corner Market".data.countP isAlnum : Nat) : Int) = 14
    decide

theorem C19_retailer_rule_counts_characters_witness :
    ReciptChecker.afterRetailer ⟨"M&M Corner Market", "2022-03-20", "14:33", [], "9.00"⟩ =
      ("M&M Corner Market".data.countP isAlnum : Int) :=
  (C19_retailer_rule_counts_characters ⟨"M&M Corner Market", "2022-03-20", "14:33", [], "9.00"⟩
    (by decide)).1

/-! ## Rule 4: the pairs of items -/

/-- C11: for every receipt with `n` items (fewer than `2^61`: the items of a Go slice take 32
bytes each of a 64-bit address space), rule 4 adds exactly `5 * (n / 2)` points to what rule 3
left; `2 * k + 1` items add what `2 * k` items add, so the odd item out adds nothing, and a
receipt with 0 or 1 items gets no pair bonus. -/
theorem C11_rule4_pairs (receipt : Receipt) (hn : receipt.Items.length < 2 ^ 61) :
    afterRule4 receipt = afterRule3 receipt + 5 * ((receipt.Items.length / 2 : Nat) : Int) ∧
    (∀ k : Nat, receipt.Items.length = 2 * k ∨ receipt.Items.length = 2 * k + 1 →
      afterRule4 receipt = afterRule3 receipt + 5 * (k : Int)) ∧
    (receipt.Items.length ≤ 1 → afterRule4 receipt = afterRule3 receipt) := by
  obtain ⟨h1, h2⟩ := afterRule3_range receipt
  have h3 : receipt.Items.length / 2 < 2 ^ 60 := by omega
  have h4 : ((receipt.Items.length / 2 : ℕ) : ℤ) < 2 ^ 60 := by exact_mod_cast h3
  have h5 : (0:ℤ) ≤ ((receipt.Items.length / 2 : ℕ) : ℤ) := Int.natCast_nonneg _
  have key : afterRule4 receipt =
      afterRule3 receipt + 5 * ((receipt.Items.length / 2 : Nat) : Int) := by
    unfold afterRule4
    rw [wrap64_of_range (((receipt.Items.length / 2 : ℕ) : ℤ) * 5) (by omega) (by omega),
      wrap64_of_range _ (by omega) (by omega)]
    ring
  refine ⟨key, ?_, ?_⟩
  · intro k hk
    rw [key]
    have : receipt.Items.length / 2 = k := by omega
    rw [this]
  · intro h
    rw [key]
    have : receipt.Items.length / 2 = 0 := by omega
    rw [this]
    simp

theorem C11_rule4_pairs_witness :
    afterRule4 ⟨"Target", "2022-01-01", "13:01", "35.35",
        [⟨"Mountain Dew 12PK", "6.49"⟩, ⟨"Emils Cheese Pizza", "12.25"⟩,
         ⟨"Knorr Creamy Chicken", "1.26"⟩]⟩ =
      afterRule3 ⟨"Target", "2022-01-01", "13:01", "35.35",
        [⟨"Mountain Dew 12PK", "6.49"⟩, ⟨"Emils Cheese Pizza", "12.25"⟩,
         ⟨"Knorr Creamy Chicken", "1.26"⟩]⟩ + 5 * ((1 : Nat) : Int) :=
  (C11_rule4_pairs ⟨"Target", "2022-01-01", "13:01", "35.35",
        [⟨"Mountain Dew 12PK", "6.49"⟩, ⟨"Emils Cheese Pizza", "12.25"⟩,
         ⟨"Knorr Creamy Chicken", "1.26"⟩]⟩ (by decide)).2.1 1 (Or.inr rfl)

/-! ## Rule 6: what the flag adds -/

theorem rule5Loop_range (items : List Item) : ∀ points : ℤ,
    -(2 ^ 63) ≤ points → points < 2 ^ 63 →
    -(2 ^ 63) ≤ rule5Loop items points ∧ rule5Loop items points < 2 ^ 63 := by
  induction items with
  | nil => intro points h1 h2; exact ⟨h1, h2⟩
  | cons item items ih =>
    intro points h1 h2
    by_cases hq : len (TrimSpace item.Desc.data) % 3 = 0
    · simp only [rule5Loop, hq, if_true]
      exact ih _ (wrap64_range _).1 (wrap64_range _).2
    · simp only [rule5Loop, hq, if_false]
      exact ih _ h1 h2

theorem afterRule5_range (receipt : Receipt) :
    -(2 ^ 63) ≤ afterRule5 receipt ∧ afterRule5 receipt < 2 ^ 63 :=
  rule5Loop_range _ _ (wrap64_range _).1 (wrap64_range _).2

/-- C12, refuted as stated: with three items whose prices bring the score with the flag
disabled to `2^63 - 1`, the largest `int`, the score with the flag enabled wraps around to
`-2^63 + 4`, which is not 5 more. -/
theorem C12_counterexample :
    calculatePoints false ⟨"Target", "2022-01-02", "13:01", "1.10",
      [⟨"abc", "23058430092136939520"⟩, ⟨"abc", "23058430092136936960"⟩, ⟨"abc", "2521.00"⟩]⟩
      = some 9223372036854775807 ∧
    calculatePoints true ⟨"Target", "2022-01-02", "13:01", "1.10",
      [⟨"abc", "23058430092136939520"⟩, ⟨"abc", "23058430092136936960"⟩, ⟨"abc", "2521.00"⟩]⟩
      = some (-9223372036854775804) := by
  constructor <;> decide!

/-- C12, amended: for every receipt whose purchase date has the year-month-day form and whose
purchase time parses, `calculatePoints` returns a score with the flag disabled and one with
the flag enabled, and the second is the first plus 5, reduced to the 64-bit `int`; it is
exactly 5 more whenever the score with the flag disabled is below `2^63 - 5`. -/
theorem C12_flag_adds_five (receipt : Receipt) (y m d : List Char) (t : GoTime)
    (hdate : isYearMonthDay receipt.Date y m d)
    (htime : timeParse receipt.Time.data = some t) :
    ∃ disabled enabled : Int, calculatePoints false receipt = some disabled ∧
      calculatePoints true receipt = some enabled ∧
      enabled = wrap64 (disabled + 5) ∧ (disabled < 2 ^ 63 - 5 → enabled = disabled + 5) := by
  have hs := Split_yearMonthDay receipt.Date y m d hdate
  have hg : [y, m, d].get? 2 = some d := rfl
  obtain ⟨h1, h2⟩ := afterRule5_range receipt
  have hrel : ∀ disabled enabled : Int, -(2 ^ 63) ≤ disabled →
      enabled = wrap64 (disabled + 5) →
      enabled = wrap64 (disabled + 5) ∧ (disabled < 2 ^ 63 - 5 → enabled = disabled + 5) := by
    intro disabled enabled hlo hon
    refine ⟨hon, fun hhi => ?_⟩
    rw [hon]
    exact wrap64_of_range _ (by omega) (by omega)
  have h7 : ∃ disabled enabled : Int, afterRule7 false receipt = some disabled ∧
      afterRule7 true receipt = some enabled ∧ -(2 ^ 63) ≤ disabled ∧
      enabled = wrap64 (disabled + 5) := by
    simp only [afterRule7, hs, hg, afterRule6, if_true, Bool.false_eq_true, if_false]
    by_cases hodd : Int.tmod (Atoi d) 2 ≠ 0
    · rw [if_pos hodd, if_pos hodd]
      refine ⟨_, _, rfl, rfl, (wrap64_range _).1, ?_⟩
      rw [wrap64_add_left, wrap64_add_left]
      congr 1; ring
    · rw [if_neg hodd, if_neg hodd]
      exact ⟨_, _, rfl, rfl, h1, rfl⟩
  obtain ⟨disabled, enabled, hoff, hon, hlo, hrelat⟩ := h7
  simp only [calculatePoints, hoff, hon, rule8, htime]
  by_cases hw : (t.After start && t.Before «end») = true
  · rw [if_pos hw, if_pos hw]
    refine ⟨_, _, rfl, rfl, ?_⟩
    apply hrel _ _ (wrap64_range _).1
    rw [hrelat, wrap64_add_left, wrap64_add_left]
    congr 1; ring
  · rw [if_neg hw, if_neg hw]
    exact ⟨_, _, rfl, rfl, hrel _ _ hlo hrelat⟩

theorem C12_flag_adds_five_witness :
    ∃ disabled enabled : Int,
      calculatePoints false ⟨"Target", "2022-01-01", "13:01", "35.35", []⟩ = some disabled ∧
      calculatePoints true ⟨"Target", "2022-01-01", "13:01", "35.35", []⟩ = some enabled ∧
      enabled = wrap64 (disabled + 5) ∧ (disabled < 2 ^ 63 - 5 → enabled = disabled + 5) :=
  C12_flag_adds_five ⟨"Target", "2022-01-01", "13:01", "35.35", []⟩
    "2022".data "01".data "01".data ⟨13 * 3600 + 60⟩
    ⟨by decide, by decide, by decide, by decide, by decide, by decide⟩ (by decide)

/-! ## The score store -/

theorem TrimPrefix_append (p s : List Char) : TrimPrefix (p ++ s) p = s := by
  unfold TrimPrefix
  rw [if_pos (List.isPrefixOf_iff_prefix.2 (List.prefix_append p s)), List.drop_left]

theorem TrimSuffix_append (s p : List Char) : TrimSuffix (s ++ p) p = s := by
  unfold TrimSuffix
  rw [if_pos (List.isSuffixOf_iff_suffix.2 (List.suffix_append s p))]
  simp

/-- The identifier `GetPoints` reads off the path `/receipts/id/points` is `id`. -/
theorem requestId_path (id : String) : requestId ("/receipts/" ++ id ++ "/points") = id := by
  unfold requestId
  rw [String.data_append, String.data_append, List.append_assoc, TrimPrefix_append,
    TrimSuffix_append]

theorem ProcessReceipt_data_of_ne (IsLLM : Bool) (newR : ReceiptProcessor) (rec : Receipt)
    (err : Bool) (id key : String) (h : id ≠ key) :
    (ProcessReceipt IsLLM newR rec err id).1.data key = newR.data key := by
  unfold ProcessReceipt
  cases err
  · cases hc : calculatePoints IsLLM rec with
    | none => simp
    | some points => simp [Ne.symm h]
  · simp

theorem serveAll_data_of_ne (IsLLM : Bool) (key : String) (reqs : List Request) :
    ∀ newR : ReceiptProcessor, (∀ req ∈ reqs, req.issued ≠ some key) →
    (serveAll IsLLM newR reqs).data key = newR.data key := by
  induction reqs with
  | nil => intro newR _; rfl
  | cons req reqs ih =>
    intro newR h
    have hreq := h req (List.mem_cons_self _ _)
    have hrest : ∀ r ∈ reqs, r.issued ≠ some key := fun r hr => h r (List.mem_cons_of_mem _ hr)
    show (serveAll IsLLM (serve IsLLM newR req) reqs).data key = newR.data key
    rw [ih _ hrest]
    cases req with
    | process rec err id =>
      exact ProcessReceipt_data_of_ne IsLLM newR rec err id key
        (fun e => hreq (by rw [e]; rfl))
    | get path =>
      show (GetPoints newR path).1.data key = newR.data key
      unfold GetPoints
      split <;> rfl

theorem GetPoints_of_data (newR : ReceiptProcessor) (path : String) (points : Int)
    (h : newR.data (requestId path) = some points) :
    GetPoints newR path = (newR, Response.points points) := by
  unfold GetPoints
  rw [h]

theorem GetPoints_of_absent (newR : ReceiptProcessor) (path : String)
    (h : newR.data (requestId path) = none) :
    GetPoints newR path =
      (newR, Response.Error "No reciept found for that ID value" StatusNotFound) := by
  unfold GetPoints
  rw [h]

theorem ProcessReceipt_of_score (IsLLM : Bool) (newR : ReceiptProcessor) (rec : Receipt)
    (id : String) (points : Int) (h : calculatePoints IsLLM rec = some points) :
    ProcessReceipt IsLLM newR rec false id =
      (⟨fun key => if key = id then some points else newR.data key⟩, some (Response.id id)) := by
  unfold ProcessReceipt
  rw [h]
  rfl

/-- C13: for every store state, every receipt that decodes and is scored `points`, and every
identifier `i` issued for it, `ProcessReceipt` answers with `i`, and `GetPoints` for the path
`/receipts/i/points` then returns exactly `points` and leaves the store as it is; after the
same receipt is submitted again under an identifier `j`, both `i` and `j` are retrievable
with the same `points`. -/
theorem C13_stored_points_retrievable (IsLLM : Bool) (newR : ReceiptProcessor) (rec : Receipt)
    (i j : String) (points : Int) (hscore : calculatePoints IsLLM rec = some points) :
    (ProcessReceipt IsLLM newR rec false i).2 = some (Response.id i) ∧
    GetPoints (ProcessReceipt IsLLM newR rec false i).1 ("/receipts/" ++ i ++ "/points") =
      ((ProcessReceipt IsLLM newR rec false i).1, Response.points points) ∧
    (GetPoints (ProcessReceipt IsLLM (ProcessReceipt IsLLM newR rec false i).1 rec false j).1
      ("/receipts/" ++ i ++ "/points")).2 = Response.points points ∧
    (GetPoints (ProcessReceipt IsLLM (ProcessReceipt IsLLM newR rec false i).1 rec false j).1
      ("/receipts/" ++ j ++ "/points")).2 = Response.points points := by
  have h1 : ∀ (s : ReceiptProcessor) (k : String),
      (ProcessReceipt IsLLM s rec false k).1.data k = some points := by
    intro s k
    rw [ProcessReceipt_of_score IsLLM s rec k points hscore]
    simp
  refine ⟨?_, ?_, ?_, ?_⟩
  · rw [ProcessReceipt_of_score IsLLM newR rec i points hscore]
  · exact GetPoints_of_data _ _ _ (by rw [requestId_path]; exact h1 newR i)
  · rw [GetPoints_of_data _ _ points]
    rw [requestId_path]
    by_cases hij : j = i
    · rw [hij]; exact h1 _ i
    · rw [ProcessReceipt_data_of_ne _ _ _ _ _ _ hij]; exact h1 newR i
  · rw [GetPoints_of_data _ _ points]
    rw [requestId_path]; exact h1 _ j

theorem C13_stored_points_retrievable_witness :
    GetPoints (ProcessReceipt false NewReceiptProcessor
        ⟨"Target", "2022-01-01", "13:01", "35.35", []⟩ false
        "7fb1377b-b223-49d9-a31a-5a02701dd310").1
      ("/receipts/" ++ "7fb1377b-b223-49d9-a31a-5a02701dd310" ++ "/points") =
      ((ProcessReceipt false NewReceiptProcessor
        ⟨"Target", "2022-01-01", "13:01", "35.35", []⟩ false
        "7fb1377b-b223-49d9-a31a-5a02701dd310").1, Response.points 7) :=
  (C13_stored_points_retrievable false NewReceiptProcessor
    ⟨"Target", "2022-01-01", "13:01", "35.35", []⟩ "7fb1377b-b223-49d9-a31a-5a02701dd310"
    "adb6b560-0eef-42bc-9d16-df48f30e89b2" 7 (by decide!)).2.1

/-- C14: for every store state, `GetPoints` on an identifier that is absent from the store
answers with the not-found error (HTTP 404) and no points, and it answers with points only
when the store holds them for the identifier; in particular an identifier under which no
request ever stored anything since the store was created is not found. -/
theorem C14_unknown_id_not_found (IsLLM : Bool) (newR : ReceiptProcessor) (path id : String)
    (reqs : List Request) :
    (newR.data (requestId path) = none →
      GetPoints newR path =
        (newR, Response.Error "No reciept found for that ID value" StatusNotFound)) ∧
    (∀ points, (GetPoints newR path).2 = Response.points points ↔
      newR.data (requestId path) = some points) ∧
    ((∀ req ∈ reqs, req.issued ≠ some id) →
      (GetPoints (serveAll IsLLM NewReceiptProcessor reqs) ("/receipts/" ++ id ++ "/points")).2 =
        Response.Error "No reciept found for that ID value" 404) := by
  refine ⟨GetPoints_of_absent newR path, ?_, ?_⟩
  · intro points
    constructor
    · intro h
      cases hd : newR.data (requestId path) with
      | none => rw [GetPoints_of_absent newR path hd] at h; cases h
      | some p =>
        rw [GetPoints_of_data newR path p hd] at h
        injection h with h
        rw [h]
    · intro h
      rw [GetPoints_of_data newR path points h]
  · intro h
    rw [GetPoints_of_absent]
    · rfl
    · rw [requestId_path, serveAll_data_of_ne IsLLM id reqs _ h]
      rfl

theorem C14_unknown_id_not_found_witness :
    GetPoints NewReceiptProcessor "/receipts/7fb1377b/points" =
      (NewReceiptProcessor, Response.Error "No reciept found for that ID value" StatusNotFound) ∧
    (GetPoints (serveAll false NewReceiptProcessor
        [Request.process ⟨"Target", "2022-01-01", "13:01", "35.35", []⟩ false "adb6b560",
         Request.get "/receipts/adb6b560/points"])
      ("/receipts/" ++ "7fb1377b" ++ "/points")).2 =
        Response.Error "No reciept found for that ID value" 404 :=
  ⟨(C14_unknown_id_not_found false NewReceiptProcessor "/receipts/7fb1377b/points" "7fb1377b"
      []).1 rfl,
   (C14_unknown_id_not_found false NewReceiptProcessor "/receipts/7fb1377b/points" "7fb1377b"
      [Request.process ⟨"Target", "2022-01-01", "13:01", "35.35", []⟩ false "adb6b560",
       Request.get "/receipts/adb6b560/points"]).2.2
      (by
        intro req hreq
        simp only [List.mem_cons, List.mem_singleton, List.not_mem_nil, or_false] at hreq
        rcases hreq with rfl | rfl
        · decide
        · decide)⟩

/-- C15: a record `(id, points)` of the store, in any state, is still there with the same
points after every sequence of later requests in which no call of `ProcessReceipt` is issued
the identifier `id`: `GetPoints` leaves the store as it is, and `ProcessReceipt` with another
identifier leaves the record as it is. -/
theorem C15_records_immutable (IsLLM : Bool) (newR : ReceiptProcessor) (id : String)
    (points : Int) (reqs : List Request) (hstored : newR.data id = some points)
    (hfresh : ∀ req ∈ reqs, req.issued ≠ some id) :
    (serveAll IsLLM newR reqs).data id = some points ∧
    (∀ path, (GetPoints newR path).1 = newR) ∧
    (∀ rec err j, j ≠ id → (ProcessReceipt IsLLM newR rec err j).1.data id = some points) := by
  refine ⟨?_, ?_, ?_⟩
  · rw [serveAll_data_of_ne IsLLM id reqs newR hfresh, hstored]
  · intro path
    unfold GetPoints
    split <;> rfl
  · intro rec err j hj
    rw [ProcessReceipt_data_of_ne IsLLM newR rec err j id hj, hstored]

theorem C15_records_immutable_witness :
    (serveAll false
      (ProcessReceipt false NewReceiptProcessor ⟨"Target", "2022-01-01", "13:01", "35.35", []⟩
        false "7fb1377b").1
      [Request.get "/receipts/7fb1377b/points",
       Request.process ⟨"Walgreens", "2022-01-02", "08:13", "2.65", []⟩ false "adb6b560",
       Request.process ⟨"", "", "", "", []⟩ true "3f2a9c41"]).data "7fb1377b" = some 7 :=
  (C15_records_immutable false
    (ProcessReceipt false NewReceiptProcessor ⟨"Target", "2022-01-01", "13:01", "35.35", []⟩
      false "7fb1377b").1 "7fb1377b" 7
    [Request.get "/receipts/7fb1377b/points",
     Request.process ⟨"Walgreens", "2022-01-02", "08:13", "2.65", []⟩ false "adb6b560",
     Request.process ⟨"", "", "", "", []⟩ true "3f2a9c41"]
    (by decide!)
    (by
      intro req hreq
      simp only [List.mem_cons, List.mem_singleton, List.not_mem_nil, or_false] at hreq
      rcases hreq with rfl | rfl | rfl
      · decide
      · decide
      · decide)).1

/-- C16: when the decoder returns an error, `ProcessReceipt` answers with the client error
(HTTP 400) and leaves the store exactly as it was, whatever the decoder left in `rec` and
whatever identifier would be issued next; it reaches neither the scoring nor the map. The
empty receipt shows that no scoring is attempted: scoring it panics, which is what the handler
does with it when the decoder returns no error. -/
theorem C16_decode_failure_leaves_store (IsLLM : Bool) (newR : ReceiptProcessor) (rec : Receipt)
    (id : String) :
    ProcessReceipt IsLLM newR rec true id =
      (newR, some (Response.Error "Invalid JSON string" 400)) ∧
    ProcessReceiptBody IsLLM rec true id = [] ∧
    calculatePoints IsLLM ⟨"", "", "", "", []⟩ = none ∧
    ProcessReceipt IsLLM newR ⟨"", "", "", "", []⟩ false id = (newR, none) := by
  refine ⟨rfl, rfl, ?_, ?_⟩
  · cases IsLLM <;> decide
  · cases IsLLM <;> rfl

/-! ## The mutex -/

/-- Every handler body takes the mutex around its one access of the map, or does not touch
the map at all. -/
theorem body_outside (IsLLM : Bool) (req : Request) : outside (req.body IsLLM) = true := by
  cases req with
  | process rec err id =>
    show outside (ProcessReceiptBody IsLLM rec err id) = true
    unfold ProcessReceiptBody
    cases err
    · cases calculatePoints IsLLM rec <;> rfl
    · rfl
  | get path => rfl

theorem outside_cons (instr : Instr) (rest : List Instr) (h : outside (instr :: rest) = true) :
    instr = Instr.Lock ∧ inside rest = true := by
  simpa [outside] using h

theorem inside_cons (instr : Instr) (rest : List Instr) (h : inside (instr :: rest) = true) :
    (instr = Instr.Unlock ∧ rest = []) ∨ (instr.isAccess = true ∧ inside rest = true) := by
  match rest, h with
  | [], h => exact Or.inl ⟨by simpa [inside] using h, rfl⟩
  | [last], h => exact Or.inr (by simpa [inside] using h)

theorem lockInvariant_step (m next : Machine) (g : Nat) (hinv : lockInvariant m)
    (hstep : step m g = some next) : lockInvariant next := by
  unfold step at hstep
  cases ht : m.threads.get? g with
  | none => rw [ht] at hstep; cases hstep
  | some t =>
    rw [ht] at hstep
    obtain ⟨hin, hout⟩ := hinv g t ht
    cases t with
    | nil => cases hstep
    | cons instr rest =>
      have hthreads : ∀ (ths : List (List Instr)), ths = m.threads.set g rest →
          ∀ g' t', ths.get? g' = some t' →
            (g' = g ∧ t' = rest) ∨ (g' ≠ g ∧ m.threads.get? g' = some t') := by
        intro ths hths g' t' h'
        by_cases hg : g' = g
        · subst hg
          left
          refine ⟨rfl, ?_⟩
          rw [hths, List.get?_eq_getElem?, List.getElem?_set] at h'
          rw [List.get?_eq_getElem?] at ht
          split at h'
          · split at h'
            · exact (Option.some.inj h').symm
            · cases h'
          · exact absurd rfl ‹_›
        · right
          refine ⟨hg, ?_⟩
          rw [hths, List.get?_eq_getElem?, List.getElem?_set_ne (Ne.symm hg)] at h'
          rw [List.get?_eq_getElem?]
          exact h'
      cases instr with
      | Lock =>
        simp only at hstep
        by_cases hh : m.holder = none
        · rw [if_pos hh] at hstep
          have hnext := (Option.some.inj hstep).symm
          subst hnext
          have ho := hout (by rw [hh]; exact fun h => Option.noConfusion h)
          have hrest := (outside_cons _ _ ho).2
          intro g' t' h'
          rcases hthreads _ rfl g' t' h' with ⟨rfl, rfl⟩ | ⟨hne, hold⟩
          · exact ⟨fun _ => hrest, fun h => absurd rfl h⟩
          · refine ⟨fun h => absurd (Option.some.inj h).symm hne, fun _ => ?_⟩
            exact (hinv g' t' hold).2 (by rw [hh]; exact fun h => Option.noConfusion h)
        · rw [if_neg hh] at hstep; cases hstep
      | Unlock =>
        simp only at hstep
        by_cases hh : m.holder = none
        · rw [if_pos hh] at hstep; cases hstep
        · rw [if_neg hh] at hstep
          have hnext := (Option.some.inj hstep).symm
          subst hnext
          have hg : m.holder = some g := by
            by_contra hne
            have := (outside_cons _ _ (hout hne)).1
            cases this
          have hrest : rest = [] := by
            rcases inside_cons _ _ (hin hg) with ⟨_, h⟩ | ⟨h, _⟩
            · exact h
            · cases h
          intro g' t' h'
          rcases hthreads _ rfl g' t' h' with ⟨rfl, rfl⟩ | ⟨hne, hold⟩
          · exact ⟨fun h => Option.noConfusion h, fun _ => by rw [hrest]; rfl⟩
          · refine ⟨fun h => Option.noConfusion h, fun _ => ?_⟩
            exact (hinv g' t' hold).2 (by rw [hg]; exact fun h => hne (Option.some.inj h).symm)
      | Write id points =>
        simp only at hstep
        have hnext := (Option.some.inj hstep).symm
        subst hnext
        have hg : m.holder = some g := by
          by_contra hne
          have := (outside_cons _ _ (hout hne)).1
          cases this
        have hrest : inside rest = true := by
          rcases inside_cons _ _ (hin hg) with ⟨h, _⟩ | ⟨_, h⟩
          · cases h
          · exact h
        intro g' t' h'
        rcases hthreads _ rfl g' t' h' with ⟨rfl, rfl⟩ | ⟨hne, hold⟩
        · exact ⟨fun _ => hrest, fun h => absurd hg h⟩
        · exact hinv g' t' hold
      | Read id =>
        simp only at hstep
        have hnext := (Option.some.inj hstep).symm
        subst hnext
        have hg : m.holder = some g := by
          by_contra hne
          have := (outside_cons _ _ (hout hne)).1
          cases this
        have hrest : inside rest = true := by
          rcases inside_cons _ _ (hin hg) with ⟨h, _⟩ | ⟨_, h⟩
          · cases h
          · exact h
        intro g' t' h'
        rcases hthreads _ rfl g' t' h' with ⟨rfl, rfl⟩ | ⟨hne, hold⟩
        · exact ⟨fun _ => hrest, fun h => absurd hg h⟩
        · exact hinv g' t' hold

theorem lockInvariant_run (schedule : List Nat) : ∀ m next : Machine, lockInvariant m →
    run m schedule = some next → lockInvariant next := by
  induction schedule with
  | nil =>
    intro m next hinv h
    have := Option.some.inj h
    subst this
    exact hinv
  | cons g schedule ih =>
    intro m next hinv h
    simp only [run] at h
    cases hs : step m g with
    | none => rw [hs] at h; cases h
    | some mid =>
      rw [hs] at h
      exact ih mid next (lockInvariant_step m mid g hinv hs) h

theorem lockInvariant_serving (IsLLM : Bool) (newR : ReceiptProcessor) (reqs : List Request) :
    lockInvariant (serving IsLLM newR reqs) := by
  intro g t h
  refine ⟨fun hh => Option.noConfusion hh, fun _ => ?_⟩
  simp only [serving, List.get?_eq_getElem?, List.getElem?_map, Option.map_eq_some'] at h
  obtain ⟨req, _, rfl⟩ := h
  exact body_outside IsLLM req

theorem holder_of_accessing (m : Machine) (hinv : lockInvariant m) (g : Nat)
    (h : accessing m g = true) : m.holder = some g := by
  unfold accessing at h
  cases ht : m.threads.get? g with
  | none => rw [ht] at h; cases h
  | some t =>
    rw [ht] at h
    cases t with
    | nil => cases h
    | cons instr rest =>
      simp only at h
      by_contra hne
      have := (outside_cons _ _ ((hinv g _ ht).2 hne)).1
      rw [this] at h
      cases h

/-- C17: in every state the server reaches from the start of the goroutines of any requests,
under any schedule, a goroutine that is at a read or a write of the map holds the mutex, so
no two goroutines are at an access of the map at the same time. -/
theorem C17_store_access_under_mutex (IsLLM : Bool) (newR : ReceiptProcessor)
    (reqs : List Request) (schedule : List Nat) (m : Machine)
    (hrun : run (serving IsLLM newR reqs) schedule = some m) :
    (∀ g, accessing m g = true → m.holder = some g) ∧
    (∀ g g', accessing m g = true → accessing m g' = true → g = g') := by
  have hinv := lockInvariant_run schedule _ m (lockInvariant_serving IsLLM newR reqs) hrun
  refine ⟨holder_of_accessing m hinv, fun g g' hg hg' => ?_⟩
  have h1 := holder_of_accessing m hinv g hg
  have h2 := holder_of_accessing m hinv g' hg'
  rw [h1] at h2
  exact Option.some.inj h2

theorem C17_store_access_under_mutex_witness :
    accessing ⟨fun key => if key = "7fb1377b" then some 7 else NewReceiptProcessor.data key, some 1,
        [[], [Instr.Read "7fb1377b", Instr.Unlock]]⟩ 1 = true ∧
    ∀ g, accessing ⟨fun key => if key = "7fb1377b" then some 7 else NewReceiptProcessor.data key,
        some 1, [[], [Instr.Read "7fb1377b", Instr.Unlock]]⟩ g = true →
      (some 1 : Option Nat) = some g :=
  ⟨rfl,
   (C17_store_access_under_mutex false NewReceiptProcessor
    [Request.process ⟨"Target", "2022-01-01", "13:01", "35.35", []⟩ false "7fb1377b",
     Request.get "/receipts/7fb1377b/points"]
    [0, 0, 0, 1] _
    (by
      have hbody : ProcessReceiptBody false ⟨"Target", "2022-01-01", "13:01", "35.35", []⟩ false
          "7fb1377b" = [Instr.Lock, Instr.Write "7fb1377b" 7, Instr.Unlock] := by decide!
      simp only [serving, List.map, Request.body, hbody]
      rfl)).1⟩

/-- Run alone, the body of a handler leaves the store that the handler leaves. -/
theorem body_agrees_with_handler (IsLLM : Bool) (newR : ReceiptProcessor) (req : Request) :
    (run ⟨newR.data, none, [req.body IsLLM]⟩ (List.replicate (req.body IsLLM).length 0)).map
      (fun m => (m.data, m.holder, m.threads)) = some ((serve IsLLM newR req).data, none, [[]]) := by
  cases req with
  | process rec err id =>
    show (run ⟨newR.data, none, [ProcessReceiptBody IsLLM rec err id]⟩
      (List.replicate (ProcessReceiptBody IsLLM rec err id).length 0)).map _ =
        some ((ProcessReceipt IsLLM newR rec err id).1.data, none, [[]])
    unfold ProcessReceiptBody ProcessReceipt
    cases err
    · cases calculatePoints IsLLM rec <;> rfl
    · rfl
  | get path =>
    show _ = some ((GetPoints newR path).1.data, none, [[]])
    have : (GetPoints newR path).1 = newR := by unfold GetPoints; split <;> rfl
    rw [this]
    rfl

/-! ## The time rule of the alternate implementation -/

theorem colon_not_mem_of_isNumeral (s : List Char) (h : isNumeral s = true) : ':' ∉ s := by
  intro hm
  simp only [isNumeral, Bool.and_eq_true, List.all_eq_true] at h
  have := h.2 _ hm
  revert this
  decide

theorem timeRule_hourMinute (time : String) (hour min : List Char) (points : Int)
    (h : isHourMinute time hour min) :
    ReciptChecker.timeRule time points =
      some (if digitsVal hour = 14 then wrap64 (points + 10) else points) := by
  obtain ⟨hh, hm, hl, _, he⟩ := h
  have hs : Split ':' time.data = [hour, min] := by
    rw [he, Split_append_sep _ _ _ (colon_not_mem_of_isNumeral hour hh),
      Split_of_not_mem _ _ (colon_not_mem_of_isNumeral min hm)]
  have hg : [hour, min].get? 0 = some hour := rfl
  simp only [ReciptChecker.timeRule, hs, hg, Atoi_short_numeral hour hh hl]
  by_cases h14 : digitsVal hour = 14
  · rw [if_pos (by exact_mod_cast h14), if_pos h14]
  · rw [if_neg (by exact_mod_cast h14), if_neg h14]

/-- C18, evaluated on the code: for a purchase time of the form hour:minute the time rule of
the alternate implementation adds 10 points exactly when the hour is 14, whatever the minute
is. So `14:33` earns the 10 points, `15:30` earns nothing and `14:00` earns the 10 points; a
receipt with retailer `Target` that the implementation in `receiptProcessor.go` scores 11 at
`15:30` and 1 at `14:00` is scored 6 and 16. -/
theorem C18_time_rule_tests_hour_14 (receipt : ReciptChecker.Receipt) (points : Int)
    (hour min : List Char) (hform : isHourMinute receipt.PurchaseTime hour min)
    (hday : ReciptChecker.afterDay receipt = some points) :
    ReciptChecker.calculatePoints receipt =
      some (if digitsVal hour = 14 then wrap64 (points + 10) else points) ∧
    (∀ p, ReciptChecker.timeRule "14:33" p = some (wrap64 (p + 10))) ∧
    (∀ p, ReciptChecker.timeRule "15:30" p = some p) ∧
    (∀ p, ReciptChecker.timeRule "14:00" p = some (wrap64 (p + 10))) ∧
    ReciptChecker.calculatePoints ⟨"Target", "2022-01-02", "15:30", [], "1.10"⟩ = some 6 ∧
    ReciptChecker.calculatePoints ⟨"Target", "2022-01-02", "14:00", [], "1.10"⟩ = some 16 ∧
    calculatePoints false ⟨"Target", "2022-01-02", "15:30", "1.10", []⟩ = some 11 ∧
    calculatePoints false ⟨"Target", "2022-01-02", "14:00", "1.10", []⟩ = some 1 := by
  refine ⟨?_, ?_, ?_, ?_, by decide!, by decide!, by decide!, by decide!⟩
  · simp only [ReciptChecker.calculatePoints, hday]
    exact timeRule_hourMinute _ hour min points hform
  · intro p
    rw [timeRule_hourMinute "14:33" "14".data "33".data p
      ⟨by decide, by decide, by decide, by decide, by decide⟩]
    rfl
  · intro p
    rw [timeRule_hourMinute "15:30" "15".data "30".data p
      ⟨by decide, by decide, by decide, by decide, by decide⟩]
    rfl
  · intro p
    rw [timeRule_hourMinute "14:00" "14".data "00".data p
      ⟨by decide, by decide, by decide, by decide, by decide⟩]
    rfl

theorem C18_time_rule_tests_hour_14_witness :
    ReciptChecker.calculatePoints ⟨"Target", "2022-01-02", "15:30", [], "1.10"⟩ =
      some (if digitsVal "15".data = 14 then wrap64 (6 + 10) else 6) :=
  (C18_time_rule_tests_hour_14 ⟨"Target", "2022-01-02", "15:30", [], "1.10"⟩ 6
    "15".data "30".data ⟨by decide, by decide, by decide, by decide, by decide⟩ (by decide!)).1

end ReceiptProcessor
